import Mathlib

/-!
A verification development for the map-reduce engine.

Shallow embedding of the coordinator actor (`mapreduce/rpcs.go`, `mapreduce/master.go`),
of the split helper (`mapreduce/database.go`), of the map and reduce pipelines
(`mapreduce/worker.go`) and of the word-count client (`main.go`).

Conventions of the embedding.
* A Go slice is a `List`; the slices of distinct tasks are not aliased (as `runMaster`
  builds them, one `make` per task).
* A Go `int` is an `Int`; arithmetic that can leave the 64-bit range goes through `wrapInt`.
* A run-time panic (index out of range, integer division by zero, close of a nil channel)
  and a send or receive that can never complete are the result `none`.
* A pair relation is the `List` of its rows in scan order; `insert` appends a row. Storage
  and transport failures of the external SQL and HTTP collaborators are not modelled.
-/

namespace MapReduce

/-! ## Data model (`worker.go`, `master.go`) -/

/-- Go `int` on a 64-bit platform: two's-complement wrap-around into `[-2^63, 2^63)`. -/
def wrapInt (x : Int) : Int := (x + 2 ^ 63) % 2 ^ 64 - 2 ^ 63

/-- The struct `MapTask` of `worker.go`. -/
structure MapTask where
  M : Int
  R : Int
  N : Int
  SourceHost : String
  SourcePort : String
  Distributed : Bool
  Finished : Bool
deriving DecidableEq, Repr

/-- The struct `ReduceTask` of `worker.go`. -/
structure ReduceTask where
  M : Int
  R : Int
  N : Int
  SourceHosts : List String
  SourcePorts : List String
  Distributed : Bool
  Finished : Bool
  FinishedBy : String
  FinishedByPort : String
deriving DecidableEq, Repr

/-- The struct `Pair` of `worker.go`. -/
structure Pair where
  Key : String
  Value : String
deriving DecidableEq, Repr

/-- The struct `Tasks` of `master.go`. `FinChannel` is abstracted to the number of sentinels
the actor has sent on the channel. -/
structure Tasks where
  MTasks : List MapTask
  RTasks : List ReduceTask
  Finished : Bool
  AliveWorkers : Int
  FinChannel : Nat
deriving DecidableEq, Repr

/-- The struct `Task` of `master.go`, the reply of `GetTask`. -/
structure Task where
  RTask : ReduceTask
  MTask : MapTask
  IsMap : Bool
  GotATask : Bool
deriving DecidableEq, Repr

/-- The struct `Shutdown` of `master.go`. -/
structure Shutdown where
  Ok : Bool
deriving DecidableEq, Repr

/-- The struct `Notification` of `master.go`. -/
structure Notification where
  TaskN : Int
  Address : String
  Port : String
deriving DecidableEq, Repr

/-- Go zero value of `MapTask`. -/
def MapTask.zero : MapTask :=
  { M := 0, R := 0, N := 0, SourceHost := "", SourcePort := "", Distributed := false,
    Finished := false }

/-- Go zero value of `ReduceTask` (nil slices are empty lists). -/
def ReduceTask.zero : ReduceTask :=
  { M := 0, R := 0, N := 0, SourceHosts := [], SourcePorts := [], Distributed := false,
    Finished := false, FinishedBy := "", FinishedByPort := "" }

/-- Go zero value of `Task`: the reply value the RPC layer hands to `GetTask`. -/
def Task.zero : Task :=
  { RTask := ReduceTask.zero, MTask := MapTask.zero, IsMap := false, GotATask := false }

/-- Go slice read `xs[i]`: `none` is the index-out-of-range panic. -/
def sliceGet {α : Type} (xs : List α) (i : Int) : Option α :=
  if 0 ≤ i then xs[i.toNat]? else none

/-- Go slice store `xs[i] = v`: `none` is the index-out-of-range panic. -/
def sliceSet {α : Type} (xs : List α) (i : Int) (v : α) : Option (List α) :=
  if 0 ≤ i ∧ i < xs.length then some (xs.set i.toNat v) else none

/-! ## The actor closures (`rpcs.go`) -/

/-- Closure of `Server.Ping`: `t.AliveWorkers += 1`. -/
def Ping (t : Tasks) : Tasks :=
  { t with AliveWorkers := wrapInt (t.AliveWorkers + 1) }

/-- First loop of `GetTask`, `for r, mT := range t.MTasks`: the list is the part of the slice
still to visit and `r` the index of its head, so `mT` is the copy of `t.MTasks[r]`. -/
def GetTask.mapLoop (t : Tasks) (task : Task) : Nat → List MapTask → Tasks × Task
  | _, [] => (t, task)
  | r, mT :: rest =>
    if !mT.Distributed then
      ({ t with MTasks := t.MTasks.set r { mT with Distributed := true } },
       { task with MTask := { mT with Distributed := true }, GotATask := true, IsMap := true })
    else GetTask.mapLoop t task (r + 1) rest

/-- Second loop of `GetTask`: `mapsFinished` starts true and is cleared by every map task
that is not finished. -/
def GetTask.mapsFinished (t : Tasks) : Bool :=
  t.MTasks.foldl (fun mapsFinished mT => if !mT.Finished then false else mapsFinished) true

/-- Third loop of `GetTask`, `for r, rT := range t.RTasks`, as `GetTask.mapLoop`. -/
def GetTask.reduceLoop (t : Tasks) (task : Task) : Nat → List ReduceTask → Tasks × Task
  | _, [] => (t, task)
  | r, rT :: rest =>
    if !rT.Distributed then
      ({ t with RTasks := t.RTasks.set r { rT with Distributed := true } },
       { task with RTask := { rT with Distributed := true }, GotATask := true })
    else GetTask.reduceLoop t task (r + 1) rest

/-- Closure of `Server.GetTask`, run on the state `t` with the reply value `task`. -/
def GetTask (t : Tasks) (task : Task) : Tasks × Task :=
  let s := GetTask.mapLoop t task 0 t.MTasks
  if GetTask.mapsFinished s.1 && !s.2.GotATask then
    GetTask.reduceLoop s.1 s.2 0 s.1.RTasks
  else s

/-- Closure of `Server.ShutdownRequest`. -/
def ShutdownRequest (t : Tasks) (shutdown : Shutdown) : Tasks × Shutdown :=
  let shutdown1 := { shutdown with Ok := t.Finished }
  if t.Finished then ({ t with AliveWorkers := wrapInt (t.AliveWorkers - 1) }, shutdown1)
  else (t, shutdown1)

/-- Loop of `NotifyMapFinished`, `for _, task := range t.RTasks`: the stores go through the
slices of the copied task and so reach the state. -/
def NotifyMapFinished.sources (notification : Notification) :
    List ReduceTask → Option (List ReduceTask)
  | [] => some []
  | task :: rest =>
    (sliceSet task.SourceHosts notification.TaskN notification.Address).bind fun hosts =>
    (sliceSet task.SourcePorts notification.TaskN notification.Port).bind fun ports =>
    (NotifyMapFinished.sources notification rest).bind fun rest1 =>
    some ({ task with SourceHosts := hosts, SourcePorts := ports } :: rest1)

/-- Closure of `Server.NotifyMapFinished`. -/
def NotifyMapFinished (notification : Notification) (t : Tasks) : Option Tasks :=
  (sliceGet t.MTasks notification.TaskN).bind fun mT =>
  (sliceSet t.MTasks notification.TaskN { mT with Finished := true }).bind fun MTasks1 =>
  (NotifyMapFinished.sources notification t.RTasks).bind fun RTasks1 =>
  some { t with MTasks := MTasks1, RTasks := RTasks1 }

/-- Loop of `NotifyReduceFinished` computing `allFinished`. -/
def NotifyReduceFinished.allFinished (RTasks : List ReduceTask) : Bool :=
  RTasks.foldl (fun allFinished task => if !task.Finished then false else allFinished) true

/-- Closure of `Server.NotifyReduceFinished`. The final merge writes only to the file system
and its result is discarded; its temp path reads `t.MTasks[0]`, which panics when there is
no map task. The send on `FinChannel` is counted and taken to complete: whether the main
routine of the master still receives is not part of the actor state, so the states the
model reaches include those the program reaches. -/
def NotifyReduceFinished (notification : Notification) (t : Tasks) : Option Tasks :=
  (sliceGet t.RTasks notification.TaskN).bind fun rT =>
  (sliceSet t.RTasks notification.TaskN
    { rT with Finished := true, FinishedBy := notification.Address,
              FinishedByPort := notification.Port }).bind fun RTasks1 =>
  if NotifyReduceFinished.allFinished RTasks1 then
    (sliceGet t.MTasks 0).bind fun _ =>
    some { t with RTasks := RTasks1, Finished := true, FinChannel := t.FinChannel + 1 }
  else some { t with RTasks := RTasks1 }

/-- The RPC requests a caller can send to the master. -/
inductive Request where
  | Ping
  | GetTask
  | ShutdownRequest
  | NotifyMapFinished (notification : Notification)
  | NotifyReduceFinished (notification : Notification)
deriving DecidableEq, Repr

/-- The replies of the RPCs. -/
inductive Response where
  | nothing
  | task (task : Task)
  | shutdown (shutdown : Shutdown)
deriving DecidableEq, Repr

/-- One actor step (`startActor`: `for f := range ch { f(tasks) }`): the closure of the
request runs on the state, with a zero reply value. `none`: the closure panicked. -/
def actorStep (t : Tasks) : Request → Option (Tasks × Response)
  | Request.Ping => some (Ping t, Response.nothing)
  | Request.GetTask =>
    let s := GetTask t Task.zero
    some (s.1, Response.task s.2)
  | Request.ShutdownRequest =>
    let s := ShutdownRequest t { Ok := false }
    some (s.1, Response.shutdown s.2)
  | Request.NotifyMapFinished n => (NotifyMapFinished n t).map fun t1 => (t1, Response.nothing)
  | Request.NotifyReduceFinished n =>
    (NotifyReduceFinished n t).map fun t1 => (t1, Response.nothing)

/-- The state after a sequence of actor steps; `none` once a closure has panicked. -/
def actorRun (t : Tasks) : List Request → Option Tasks
  | [] => some t
  | q :: rest => (actorStep t q).bind fun s => actorRun s.1 rest

/-- The `GetTask` replies of a sequence of actor steps, up to its end or to the first panic. -/
def getTaskReplies (t : Tasks) : List Request → List Task
  | [] => []
  | q :: rest =>
    match actorStep t q with
    | none => []
    | some (t1, Response.task task) => task :: getTaskReplies t1 rest
    | some (t1, _) => getTaskReplies t1 rest

/-- The `(IsMap, N)` pair a worker reads off a `GetTask` reply (`runWorker`). -/
def Task.ident (task : Task) : Bool × Int :=
  (task.IsMap, if task.IsMap then task.MTask.N else task.RTask.N)

/-- The `Tasks` value `runMaster` builds for `M` map and `R` reduce tasks. -/
def initTasks (M R : Nat) (port : String) : Tasks :=
  { MTasks := (List.range M).map fun (i : Nat) =>
      { M := M, R := R, N := i, SourceHost := "localhost:" ++ port, SourcePort := port,
        Distributed := false, Finished := false }
    RTasks := (List.range R).map fun (i : Nat) =>
      { M := M, R := R, N := i, SourceHosts := List.replicate M "",
        SourcePorts := List.replicate M "", Distributed := false, Finished := false,
        FinishedBy := "", FinishedByPort := "" }
    Finished := false
    AliveWorkers := 0
    FinChannel := 0 }

/-- The task construction of `runMaster` on Go ints: `make` panics on a negative length. -/
def runMaster.tasks (M R : Int) (port : String) : Option Tasks :=
  if M < 0 ∨ R < 0 then none else some (initTasks M.toNat R.toNat port)

/-! ## Views of the coordinator state used to state its invariants -/

/-- The `N` fields of the map tasks, in slice order. -/
def Tasks.mapN (t : Tasks) : List Int := t.MTasks.map fun m => m.N

/-- The `Distributed` flags of the map tasks. -/
def Tasks.mapD (t : Tasks) : List Bool := t.MTasks.map fun m => m.Distributed

/-- The `Finished` flags of the map tasks. -/
def Tasks.mapF (t : Tasks) : List Bool := t.MTasks.map fun m => m.Finished

/-- The `N` fields of the reduce tasks, in slice order. -/
def Tasks.redN (t : Tasks) : List Int := t.RTasks.map fun r => r.N

/-- The `Distributed` flags of the reduce tasks. -/
def Tasks.redD (t : Tasks) : List Bool := t.RTasks.map fun r => r.Distributed

/-- The `Finished` flags of the reduce tasks. -/
def Tasks.redF (t : Tasks) : List Bool := t.RTasks.map fun r => r.Finished

/-- What `NotifyMapFinished` stores into one reduce task: slot `k` of both source vectors. -/
def ReduceTask.withSource (k : Nat) (address port : String) (r : ReduceTask) : ReduceTask :=
  { r with SourceHosts := r.SourceHosts.set k address, SourcePorts := r.SourcePorts.set k port }

/-- A worker notification used in the examples. -/
def exampleNotification : Notification :=
  { TaskN := 0, Address := "10.0.0.2:3411", Port := "3411" }

/-- Example state, `M = 1`, `R = 1`: map task 0 handed out and notified as finished. -/
def exampleMapDone : Tasks :=
  { MTasks := [{ M := 1, R := 1, N := 0, SourceHost := "localhost:3410",
                 SourcePort := "3410", Distributed := true, Finished := true }]
    RTasks := [{ M := 1, R := 1, N := 0, SourceHosts := ["10.0.0.2:3411"],
                 SourcePorts := ["3411"], Distributed := false, Finished := false,
                 FinishedBy := "", FinishedByPort := "" }]
    Finished := false
    AliveWorkers := 0
    FinChannel := 0 }

/-- Example state: `exampleMapDone` after reduce task 0 has been handed out as well. -/
def exampleReduceOut : Tasks :=
  { exampleMapDone with
    RTasks := [{ M := 1, R := 1, N := 0, SourceHosts := ["10.0.0.2:3411"],
                 SourcePorts := ["3411"], Distributed := true, Finished := false,
                 FinishedBy := "", FinishedByPort := "" }] }

/-- What one successful actor step does to the task flags, by kind of step: the step is
*idle* on the flags, hands out map task `i`, hands out reduce task `i`, records a finished
map task or records a finished reduce task. -/
inductive Effect (t : Tasks) : Request → Tasks → Response → Prop where
  | idle (q : Request) (t1 : Tasks) (resp : Response) :
      t1.mapD = t.mapD → t1.mapF = t.mapF → t1.redD = t.redD → t1.redF = t.redF →
      (∀ k, resp = Response.task k → k.GotATask = false) → Effect t q t1 resp
  | mapHanded (i : Nat) (n : Int) (t1 : Tasks) (k : Task) :
      t.mapD[i]? = some false → t.mapN[i]? = some n →
      t1.mapD = t.mapD.set i true → t1.mapF = t.mapF → t1.redD = t.redD → t1.redF = t.redF →
      k.GotATask = true → k.ident = (true, n) →
      Effect t Request.GetTask t1 (Response.task k)
  | redHanded (i : Nat) (n : Int) (t1 : Tasks) (k : Task) :
      t.redD[i]? = some false → t.redN[i]? = some n → (∀ b ∈ t.mapF, b = true) →
      t1.mapD = t.mapD → t1.mapF = t.mapF → t1.redD = t.redD.set i true → t1.redF = t.redF →
      k.GotATask = true → k.ident = (false, n) →
      Effect t Request.GetTask t1 (Response.task k)
  | mapNotified (n : Notification) (t1 : Tasks) :
      0 ≤ n.TaskN → n.TaskN.toNat < t.mapF.length →
      t1.mapD = t.mapD → t1.mapF = t.mapF.set n.TaskN.toNat true →
      t1.redD = t.redD → t1.redF = t.redF →
      Effect t (Request.NotifyMapFinished n) t1 Response.nothing
  | redNotified (n : Notification) (t1 : Tasks) :
      0 ≤ n.TaskN → n.TaskN.toNat < t.redF.length →
      t1.mapD = t.mapD → t1.mapF = t.mapF →
      t1.redD = t.redD → t1.redF = t.redF.set n.TaskN.toNat true →
      Effect t (Request.NotifyReduceFinished n) t1 Response.nothing

/-- The worker protocol for notifications (`runWorker` notifies only for the task it was
handed by `GetTask`): a notification names a task whose `Distributed` flag is set. -/
def Request.afterDistribution (t : Tasks) : Request → Bool
  | Request.NotifyMapFinished n =>
    match sliceGet t.MTasks n.TaskN with
    | some m => m.Distributed
    | none => false
  | Request.NotifyReduceFinished n =>
    match sliceGet t.RTasks n.TaskN with
    | some r => r.Distributed
    | none => false
  | _ => true

/-- Every request of the sequence follows the worker protocol in the state it is served in. -/
def followsProtocol (t : Tasks) : List Request → Bool
  | [] => true
  | q :: rest =>
    q.afterDistribution t &&
      match actorStep t q with
      | some s => followsProtocol s.1 rest
      | none => true

/-! ## Hash partitioning of the map output (`worker.go`, Go library `hash/fnv`) -/

/-- The bytes of a Go string holding the text `s` (its UTF-8 encoding): `[]byte(s)`. -/
def goBytes (s : String) : List UInt8 := s.data.flatMap String.utf8EncodeChar

/-- Go conversion `uint32(x)` of an `int`: the low 32 bits. -/
def uint32 (x : Int) : Nat := (x % 2 ^ 32).toNat

/-- Constant `offset32` of Go's `hash/fnv`. -/
def fnv.offset32 : Nat := 2166136261

/-- Constant `prime32` of Go's `hash/fnv`. -/
def fnv.prime32 : Nat := 16777619

/-- Go's `fnv.New32()`: a `sum32` hash state holding `offset32`. -/
def fnv.New32 : Nat := fnv.offset32

/-- Go's `(*sum32).Write` of `hash/fnv`: for every byte `c`, `hash *= prime32` and then
`hash ^= sum32(c)`, on 32-bit unsigned values. -/
def fnv.Write (s : Nat) (data : List UInt8) : Nat :=
  data.foldl (fun hash c => (hash * fnv.prime32 % 2 ^ 32) ^^^ c.toNat) s

/-- Go's `(*sum32).Sum32`. -/
def fnv.Sum32 (s : Nat) : Nat := s

/-- The bucket index of `mapCollectPair`:
`hash := fnv.New32(); hash.Write([]byte(pair.Key)); r := int(hash.Sum32() % uint32(reduceTasks))`.
`none` is the integer-divide-by-zero panic. -/
def mapCollectPair.bucket (key : String) (reduceTasks : Int) : Option Int :=
  let hash := fnv.Write fnv.New32 (goBytes key)
  if uint32 reduceTasks = 0 then none
  else some ((fnv.Sum32 hash % uint32 reduceTasks : Nat) : Int)

/-- The collector `mapCollectPair` run on the pairs the user `Map` sends on the channel:
every pair is inserted into the output relation `outputStmts[r]`. -/
def mapCollectPair (outputStmts : List (List Pair)) (reduceTasks : Int) :
    List Pair → Option (List (List Pair))
  | [] => some outputStmts
  | pair :: rest =>
    (mapCollectPair.bucket pair.Key reduceTasks).bind fun r =>
    (sliceGet outputStmts r).bind fun db =>
    (sliceSet outputStmts r (db ++ [pair])).bind fun outputStmts1 =>
    mapCollectPair outputStmts1 reduceTasks rest

/-- The hash the specification names: 32-bit FNV-1a, from the offset basis, for every byte
xor the byte and then multiply by the FNV prime. -/
def fnv1a_32 (bytes : List UInt8) : Nat :=
  bytes.foldl (fun h b => (h ^^^ b.toNat) * 16777619 % 2 ^ 32) 2166136261

/-- The 32-bit FNV-1 hash: from the offset basis, for every byte multiply by the FNV prime
and then xor the byte. -/
def fnv1_32 : List UInt8 → Nat → Nat
  | [], h => h
  | b :: rest, h => fnv1_32 rest ((h * 16777619 % 2 ^ 32) ^^^ b.toNat)

/-! ## Split (`database.go`) -/

/-- Go's `strings.TrimPrefix(s, p)`. -/
def trimLeading (s p : String) : String :=
  if p.data.isPrefixOf s.data then String.mk (s.data.drop p.data.length) else s

/-- The variables of the scan loop of `splitDatabase`; `outputDBs[i]` is the relation
written through the i-th output handle. The two counters count rows and are exact. -/
structure SplitScan where
  outputDBs : List (List Pair)
  databaseIndex : Int
  keysProcessed : Int
deriving DecidableEq, Repr

/-- One iteration of `for rows.Next()` in `splitDatabase`: `databaseIndex %= m` (Go's
truncated remainder; division by zero panics), insert into `outputDBs[databaseIndex]`,
then both counters are incremented. -/
def splitDatabase.row (m : Int) (s : SplitScan) (row : Pair) : Option SplitScan :=
  if m = 0 then none
  else
    let databaseIndex := s.databaseIndex.tmod m
    (sliceGet s.outputDBs databaseIndex).bind fun db =>
    (sliceSet s.outputDBs databaseIndex (db ++ [row])).bind fun outputDBs1 =>
    some { outputDBs := outputDBs1, databaseIndex := databaseIndex + 1,
           keysProcessed := s.keysProcessed + 1 }

/-- The scan loop of `splitDatabase` over the rows of the input relation. -/
def splitDatabase.scan (m : Int) : SplitScan → List Pair → Option SplitScan
  | s, [] => some s
  | s, row :: rest => (splitDatabase.row m s row).bind fun s1 => splitDatabase.scan m s1 rest

/-- What `splitDatabase` returns (`outputNames`, `errCheck`) and the output relations it
has written, by index. -/
structure SplitResult where
  outputNames : List String
  errCheck : Option String
  outputs : List (List Pair)
deriving DecidableEq, Repr

/-- The function `splitDatabase` on the rows of the input relation. `outputPattern i` stands
for `fmt.Sprintf(outputPattern, i)`. `none` is a panic. -/
def splitDatabase (input : List Pair) (outputPattern : Int → String) (m : Int) :
    Option SplitResult :=
  let outputNames := (List.range m.toNat).map fun (i : Nat) =>
    trimLeading (outputPattern i) "data/tmp/"
  let outputDBs : List (List Pair) := (List.range m.toNat).map fun _ => []
  (splitDatabase.scan m { outputDBs := outputDBs, databaseIndex := 0, keysProcessed := 0 }
    input).map fun s =>
    { outputNames := outputNames
      errCheck :=
        if s.keysProcessed < m then
          some ("Not enough key-values processed: " ++ toString s.keysProcessed ++
            " is less than expected " ++ toString m ++ " or more")
        else none
      outputs := s.outputDBs }

/-- The helper `mapSourceFile` of `worker.go`: `fmt.Sprintf("map_%d_source.db", m)`. -/
def mapSourceFile (m : Int) : String := "map_" ++ toString m ++ "_source.db"

/-- The helper `splitInputFile` of `helpers.go`: the pattern is
`tempDir + "map_%d_source.db"`; only the error of `splitDatabase` is returned. -/
def splitInputFile (m : Int) (input : List Pair) (tempDir : String) :
    Option (Option String) :=
  (splitDatabase input (fun i => tempDir ++ mapSourceFile i) m).map fun res => res.errCheck

/-- Three rows used in the examples. -/
def exampleRows : List Pair :=
  [{ Key := "1", Value := "a a" }, { Key := "2", Value := "b a" }, { Key := "3", Value := "b c" }]

/-- The rows `r_i` of a relation with `i mod M = j`, in scan order. -/
def roundRobin (rows : List Pair) (M j : Nat) : List Pair :=
  ((List.range rows.length).filter fun i => i % M = j).filterMap fun i => rows[i]?

/-! ## Reduce task: the grouping loop (`worker.go`) -/

/-- The channel variable `valChan` of `ReduceTask.Process`: the nil channel the variable
starts as, a channel made for the `client.Reduce` call on `key` with the values sent on it
so far, or that channel after `close`. -/
inductive ValChan where
  | nilChan
  | made (key : String) (sent : List String)
  | closed (key : String) (sent : List String)
deriving DecidableEq, Repr

/-- The variables of the scan loop of `ReduceTask.Process`. `calls` lists the `client.Reduce`
invocations whose value stream has been closed: the key passed and the values streamed, on
the understanding that the invocation receives every value sent to it. -/
structure ReduceScan where
  prevKey : String
  newKey : Bool
  valChan : ValChan
  calls : List (String × List String)
deriving DecidableEq, Repr

/-- `close(valChan); <-finished`: closing a nil or a closed channel panics. -/
def ReduceScan.close (s : ReduceScan) : Option ReduceScan :=
  match s.valChan with
  | ValChan.made key sent =>
    some { s with valChan := ValChan.closed key sent, calls := s.calls ++ [(key, sent)] }
  | _ => none

/-- `valChan <- value`: a send on a nil channel never completes, on a closed one panics. -/
def ReduceScan.send (s : ReduceScan) (value : String) : Option ReduceScan :=
  match s.valChan with
  | ValChan.made key sent => some { s with valChan := ValChan.made key (sent ++ [value]) }
  | _ => none

/-- One iteration of `for rows.Next()` in `ReduceTask.Process`. -/
def ReduceTask.Process.row (s : ReduceScan) (row : Pair) : Option ReduceScan :=
  let key := row.Key
  let value := row.Value
  -- is it a new key? (not including the first)
  (if s.prevKey ≠ "" ∧ s.prevKey ≠ key then
      ({ s with newKey := true } : ReduceScan).close
    else some s).bind fun s1 =>
  -- new key case
  let s2 : ReduceScan := if s1.newKey then { s1 with valChan := ValChan.made key [] } else s1
  (s2.send value).bind fun s3 =>
  some { s3 with prevKey := key, newKey := false }

/-- The scan loop of `ReduceTask.Process` over the sorted rows. -/
def ReduceTask.Process.scan : ReduceScan → List Pair → Option ReduceScan
  | s, [] => some s
  | s, row :: rest =>
    (ReduceTask.Process.row s row).bind fun s1 => ReduceTask.Process.scan s1 rest

/-- The grouping part of `ReduceTask.Process` (from `var key, value, prevKey string` to the
final `close(valChan); <-finished`) on the rows of the sorted scan: the `client.Reduce`
invocations it makes, each with the key passed and the values streamed to it. `none`: the
loop panics or blocks. -/
def ReduceTask.Process.groups (rows : List Pair) : Option (List (String × List String)) :=
  (ReduceTask.Process.scan
    { prevKey := "", newKey := true, valChan := ValChan.nilChan, calls := [] } rows).bind
    fun s => s.close.map fun s1 => s1.calls

/-- The distinct keys of a list of keys, in order of first occurrence. -/
def distinctKeys : List String → List String
  | [] => []
  | k :: rest => k :: (distinctKeys rest).filter fun k1 => decide (k1 ≠ k)

/-- The values of the rows with key `k`, in scan order. -/
def valuesOf (k : String) (rows : List Pair) : List String :=
  (rows.filter fun p => decide (p.Key = k)).map fun p => p.Value

/-- What key locality asks of the invocations on a key-sorted relation: one per distinct
key, in scan order, with the values of exactly the rows of that key, in scan order. -/
def groupsByKey (rows : List Pair) : List (String × List String) :=
  (distinctKeys (rows.map fun p => p.Key)).map fun k => (k, valuesOf k rows)

/-- What the scan loop does once a channel is made for key `k` with `sent` on it: rows of
key `k` extend the stream, a row of another key closes it and starts the next stream. -/
def chunksFrom : String → List String → List Pair → List (String × List String)
  | k, sent, [] => [(k, sent)]
  | k, sent, p :: rest =>
    if p.Key = k then chunksFrom k (sent ++ [p.Value]) rest
    else (k, sent) :: chunksFrom p.Key [p.Value] rest

/-! ## The user transform and the two task pipelines (`main.go`, `worker.go`) -/

/-- What a `Reduce` call did: the pairs it sent on `output` and the number of values it
received from `values` before it returned. -/
structure ReduceRun where
  output : List Pair
  received : Nat
deriving DecidableEq, Repr

/-- The interface `Interface` of `worker.go`, for user code that keeps the contract (emit,
close the output, return nil): `Map` gives the pairs sent, `Reduce` a `ReduceRun`. -/
structure Interface where
  Map : String → String → List Pair
  Reduce : String → List String → ReduceRun

/-- The tables of Go's `unicode` package that `Client.Map` uses. -/
structure UnicodeTables where
  IsSpace : Char → Bool
  IsLetter : Char → Bool
  IsDigit : Char → Bool
  ToLower : Char → Char

/-- Go's `unicode` tables restricted to ASCII (non-ASCII runes are taken as neither space,
letter nor digit): for examples on ASCII text. -/
def asciiTables : UnicodeTables where
  IsSpace c := c = ' ' || c = '\t' || c = '\n' || c = '\r' || c.toNat = 11 || c.toNat = 12
  IsLetter c := c.isAlpha
  IsDigit c := c.isDigit
  ToLower c := c.toLower

/-- Go's `strings.Fields`: the maximal runs of non-space runes. -/
def stringsFields (u : UnicodeTables) (s : String) : List String :=
  ((s.data.splitOnP u.IsSpace).filter fun f => !f.isEmpty).map String.mk

/-- Go's `strings.Map` with the mapping of `Client.Map`: letters and digits are lowered, all
other runes are dropped. -/
def normalise (u : UnicodeTables) (elt : String) : String :=
  String.mk (elt.data.filterMap fun r =>
    if u.IsLetter r || u.IsDigit r then some (u.ToLower r) else none)

/-- The method `Client.Map` of `main.go`: the pairs it sends on `output`. -/
def Client.Map (u : UnicodeTables) (_key value : String) : List Pair :=
  (stringsFields u value).filterMap fun elt =>
    let word := normalise u elt
    if word.data.length > 0 then some { Key := word, Value := "1" } else none

/-- Go's `strconv.Atoi`: an optional sign and decimal digits, within the 64-bit range. -/
def strconvAtoi (s : String) : Option Int :=
  let signed : Bool × List Char :=
    match s.data with
    | '-' :: r => (true, r)
    | '+' :: r => (false, r)
    | r => (false, r)
  if signed.2.isEmpty || !signed.2.all Char.isDigit then none
  else
    let n : Nat := signed.2.foldl (fun n ch => n * 10 + (ch.toNat - 48)) 0
    let v : Int := if signed.1 then -(n : Int) else (n : Int)
    if -(2 ^ 63) ≤ v ∧ v < 2 ^ 63 then some v else none

/-- Go's `strconv.Itoa`. -/
def strconvItoa (i : Int) : String := toString i

/-- The loop of `Client.Reduce` over the value stream. -/
def Client.Reduce.loop (key : String) : Int → Nat → List String → ReduceRun
  | count, received, [] =>
    { output := [{ Key := key, Value := strconvItoa count }], received := received }
  | count, received, v :: rest =>
    match strconvAtoi v with
    | none => { output := [], received := received + 1 }
    | some i => Client.Reduce.loop key (wrapInt (count + i)) (received + 1) rest

/-- The method `Client.Reduce` of `main.go`. -/
def Client.Reduce (key : String) (values : List String) : ReduceRun :=
  Client.Reduce.loop key 0 0 values

/-- The word-count client of `main.go`. -/
def Client (u : UnicodeTables) : Interface where
  Map := Client.Map u
  Reduce := Client.Reduce

/-- The scan loop of `MapTask.Process`: per input row the user `Map` runs and its collector
inserts the pairs emitted. -/
def MapTask.Process.scan (client : Interface) (R : Int) :
    List (List Pair) → List Pair → Option (List (List Pair))
  | outputDBs, [] => some outputDBs
  | outputDBs, row :: rest =>
    (mapCollectPair outputDBs R (client.Map row.Key row.Value)).bind fun outputDBs1 =>
    MapTask.Process.scan client R outputDBs1 rest

/-- The method `MapTask.Process` on the rows of its input shard: the `R` output relations
`map_N_output_0 … map_N_output_{R-1}` it writes. -/
def MapTask.Process (client : Interface) (R : Int) (input : List Pair) :
    Option (List (List Pair)) :=
  MapTask.Process.scan client R ((List.range R.toNat).map fun _ => []) input

/-- Strict order of two texts under the binary collation: lexicographic on the code
points, which is the `memcmp` order of their UTF-8 encodings. -/
def textLt : List Char → List Char → Bool
  | _, [] => false
  | [], _ :: _ => true
  | a :: as, b :: bs => decide (a.toNat < b.toNat) || (decide (a.toNat = b.toNat) && textLt as bs)

/-- The order of `ORDER BY key, value`: by key, rows of equal key by value. -/
def Pair.le (a b : Pair) : Bool :=
  textLt a.Key.data b.Key.data || (decide (a.Key = b.Key) && !textLt b.Value.data a.Value.data)

/-- The rows of `SELECT key, value FROM pairs ORDER BY key, value`. -/
def orderByKeyValue (rows : List Pair) : List Pair :=
  rows.insertionSort fun a b => Pair.le a b = true

/-- The output of the `client.Reduce` invocations, in order; `none` when an invocation
returned before it had received its whole stream (the scan loop then blocks on a send). -/
def ReduceTask.Process.collect (client : Interface) :
    List (String × List String) → Option (List Pair)
  | [] => some []
  | (key, values) :: rest =>
    let run := client.Reduce key values
    if run.received < values.length then none
    else (ReduceTask.Process.collect client rest).map fun out => run.output ++ out

/-- The method `ReduceTask.Process` on the map outputs it merges (`mergeDatabases` gathers
them in order): the reduce output relation it writes. The merged input and the output are
created at the same path; the scan reads the merged rows through the handle opened before
the output was created, and the output starts empty. -/
def ReduceTask.Process (client : Interface) (sources : List (List Pair)) :
    Option (List Pair) :=
  (ReduceTask.Process.groups (orderByKeyValue sources.flatten)).bind
    (ReduceTask.Process.collect client)

/-- All results of a list of task runs, unless one of them failed. -/
def allTasks {α : Type} : List (Option α) → Option (List α)
  | [] => some []
  | none :: _ => none
  | some a :: rest => (allTasks rest).map fun l => a :: l

/-- The whole job run to completion: `runMaster` splits the input (and ignores the error of
`splitInputFile`), every map task is processed, every reduce task `r` merges output `r` of
all map tasks, and `NotifyReduceFinished` merges the reduce outputs into `finalOutput.db`.
`none`: some task does not complete. -/
def runJob (client : Interface) (I : List Pair) (M R : Int) (tempDir : String) :
    Option (List Pair) :=
  (splitDatabase I (fun i => "data/" ++ tempDir ++ mapSourceFile i) M).bind fun split =>
  (allTasks (split.outputs.map (MapTask.Process client R))).bind fun mapOutputs =>
  (allTasks ((List.range R.toNat).map fun r =>
    ReduceTask.Process client (mapOutputs.map fun outs => (outs[r]?).getD []))).bind
    fun reduceOutputs =>
  some reduceOutputs.flatten

/-! ## Vocabulary of the end-to-end statement -/

/-- The bucket of a key among `R` buckets: its FNV-1 hash modulo `R`. -/
def bucketIndex (key : String) (R : Nat) : Nat := fnv1_32 (goBytes key) 2166136261 % R

/-- All pairs the user `Map` emits on the rows of a relation, in scan order. -/
def emitted (client : Interface) (rows : List Pair) : List Pair :=
  rows.flatMap fun row => client.Map row.Key row.Value

/-- The pairs of a list that belong to bucket `r`. -/
def inBucket (R r : Nat) (pairs : List Pair) : List Pair :=
  pairs.filter fun p => decide (bucketIndex p.Key R = r)

/-- The normalised words of the values of a relation, with repetitions, in scan order. -/
def wordsOf (u : UnicodeTables) (I : List Pair) : List String :=
  (emitted (Client u) I).map fun p => p.Key

/-- The word counts of a relation: one pair per distinct word, with the decimal count of its
occurrences. -/
def wordCounts (u : UnicodeTables) (I : List Pair) : List Pair :=
  (distinctKeys (wordsOf u I)).map fun w =>
    { Key := w, Value := strconvItoa ((wordsOf u I).count w : Nat) }

/-- Example state: `exampleReduceOut` after reduce task 0 has been notified as finished and
the final merge has run. -/
def exampleAllDone : Tasks :=
  { exampleReduceOut with
    RTasks := [{ M := 1, R := 1, N := 0, SourceHosts := ["10.0.0.2:3411"],
                 SourcePorts := ["3411"], Distributed := true, Finished := true,
                 FinishedBy := "10.0.0.2:3411", FinishedByPort := "3411" }]
    Finished := true
    FinChannel := 1 }

/-! ## Master start-up (`master.go`) -/

/-- The start-up of `runMaster` up to the point where the servers are started, on the rows
of the input relation: the input is split by `splitInputFile(M, …, "data/"+tempDir)`, whose
returned error is discarded, and the `Tasks` value is built. `some t`: the coordinator state
the RPC server is then started on; `none`: a panic. `runMaster` has no other exit before the
servers start (directory errors of the operating system apart). -/
def runMaster.startup (M R : Int) (port tempDir : String) (input : List Pair) :
    Option Tasks :=
  (splitInputFile M input ("data/" ++ tempDir)).bind fun _ => runMaster.tasks M R port

/-! # Theorems -/

/-! ## `GetTask` -/

theorem GetTask.mapLoop_none (t : Tasks) (task : Task) (ms : List MapTask) (r : Nat)
    (h : ∀ m ∈ ms, m.Distributed = true) : GetTask.mapLoop t task r ms = (t, task) := by
  induction ms generalizing r with
  | nil => rfl
  | cons m rest ih =>
    have hm : m.Distributed = true := h m (List.mem_cons_self _ _)
    simp only [GetTask.mapLoop, hm, Bool.not_true, Bool.false_eq_true, if_false]
    exact ih (r + 1) (fun x hx => h x (List.mem_cons_of_mem _ hx))

theorem GetTask.mapLoop_first (t : Tasks) (task : Task) (a : List MapTask) (m : MapTask)
    (b : List MapTask) (r : Nat) (ha : ∀ x ∈ a, x.Distributed = true)
    (hm : m.Distributed = false) :
    GetTask.mapLoop t task r (a ++ m :: b) =
      ({ t with MTasks := t.MTasks.set (r + a.length) { m with Distributed := true } },
       { task with MTask := { m with Distributed := true }, GotATask := true,
                   IsMap := true }) := by
  induction a generalizing r with
  | nil => simp [GetTask.mapLoop, hm]
  | cons x rest ih =>
    have hx : x.Distributed = true := ha x (List.mem_cons_self _ _)
    rw [List.cons_append, GetTask.mapLoop]
    simp only [hx, Bool.not_true, Bool.false_eq_true, if_false, List.length_cons]
    rw [ih (r + 1) (fun y hy => ha y (List.mem_cons_of_mem _ hy))]
    have : r + 1 + rest.length = r + (rest.length + 1) := by omega
    rw [this]

theorem GetTask.reduceLoop_none (t : Tasks) (task : Task) (rs : List ReduceTask) (r : Nat)
    (h : ∀ x ∈ rs, x.Distributed = true) : GetTask.reduceLoop t task r rs = (t, task) := by
  induction rs generalizing r with
  | nil => rfl
  | cons x rest ih =>
    have hx : x.Distributed = true := h x (List.mem_cons_self _ _)
    simp only [GetTask.reduceLoop, hx, Bool.not_true, Bool.false_eq_true, if_false]
    exact ih (r + 1) (fun y hy => h y (List.mem_cons_of_mem _ hy))

theorem GetTask.reduceLoop_first (t : Tasks) (task : Task) (a : List ReduceTask)
    (m : ReduceTask) (b : List ReduceTask) (r : Nat) (ha : ∀ x ∈ a, x.Distributed = true)
    (hm : m.Distributed = false) :
    GetTask.reduceLoop t task r (a ++ m :: b) =
      ({ t with RTasks := t.RTasks.set (r + a.length) { m with Distributed := true } },
       { task with RTask := { m with Distributed := true }, GotATask := true }) := by
  induction a generalizing r with
  | nil => simp [GetTask.reduceLoop, hm]
  | cons x rest ih =>
    have hx : x.Distributed = true := ha x (List.mem_cons_self _ _)
    rw [List.cons_append, GetTask.reduceLoop]
    simp only [hx, Bool.not_true, Bool.false_eq_true, if_false, List.length_cons]
    rw [ih (r + 1) (fun y hy => ha y (List.mem_cons_of_mem _ hy))]
    have : r + 1 + rest.length = r + (rest.length + 1) := by omega
    rw [this]

/-- A list splits at a valid index into the elements before it, the element and the rest. -/
theorem list_split_at {α : Type} (l : List α) (i : Nat) (x : α) (h : l[i]? = some x) :
    l = l.take i ++ x :: l.drop (i + 1) ∧ (l.take i).length = i := by
  obtain ⟨hi, hx⟩ := List.getElem?_eq_some_iff.mp h
  refine ⟨?_, by simp [List.length_take]; omega⟩
  conv_lhs => rw [← List.take_append_drop i l]
  rw [List.drop_eq_getElem_cons hi, hx]

/-- The elements before index `i` are the elements at the indices below `i`. -/
theorem mem_take_index {α : Type} (l : List α) (i : Nat) (x : α) (h : x ∈ l.take i) :
    ∃ j, j < i ∧ l[j]? = some x := by
  obtain ⟨j, hj, hx⟩ := List.mem_iff_getElem.mp h
  have hlen : j < i ∧ j < l.length := by
    simp [List.length_take] at hj; omega
  refine ⟨j, hlen.1, ?_⟩
  rw [List.getElem_take] at hx
  rw [List.getElem?_eq_getElem hlen.2, hx]

theorem GetTask.mapsFinished_fold (ms : List MapTask) (b : Bool) :
    ms.foldl (fun mapsFinished mT => if !mT.Finished then false else mapsFinished) b =
      (b && ms.all fun m => m.Finished) := by
  induction ms generalizing b with
  | nil => simp
  | cons m rest ih =>
    simp only [List.foldl_cons, List.all_cons, ih]
    cases m.Finished <;> cases b <;> simp

theorem GetTask.mapsFinished_iff (t : Tasks) :
    GetTask.mapsFinished t = true ↔ ∀ m ∈ t.MTasks, m.Finished = true := by
  rw [GetTask.mapsFinished, GetTask.mapsFinished_fold]
  simp

theorem GetTask.mapLoop_index (t : Tasks) (task : Task) (i : Nat) (mT : MapTask)
    (hi : t.MTasks[i]? = some mT) (hd : mT.Distributed = false)
    (hmin : ∀ j m, j < i → t.MTasks[j]? = some m → m.Distributed = true) :
    GetTask.mapLoop t task 0 t.MTasks =
      ({ t with MTasks := t.MTasks.set i { mT with Distributed := true } },
       { task with MTask := { mT with Distributed := true }, GotATask := true,
                   IsMap := true }) := by
  obtain ⟨hsplit, hlen⟩ := list_split_at t.MTasks i mT hi
  have ha : ∀ x ∈ t.MTasks.take i, x.Distributed = true := by
    intro x hx
    obtain ⟨j, hj, hjx⟩ := mem_take_index _ _ _ hx
    exact hmin j x hj hjx
  have h := GetTask.mapLoop_first t task (t.MTasks.take i) mT (t.MTasks.drop (i + 1)) 0 ha hd
  rw [← hsplit, hlen, Nat.zero_add] at h
  exact h

theorem GetTask.reduceLoop_index (t : Tasks) (task : Task) (i : Nat) (rT : ReduceTask)
    (hi : t.RTasks[i]? = some rT) (hd : rT.Distributed = false)
    (hmin : ∀ j r, j < i → t.RTasks[j]? = some r → r.Distributed = true) :
    GetTask.reduceLoop t task 0 t.RTasks =
      ({ t with RTasks := t.RTasks.set i { rT with Distributed := true } },
       { task with RTask := { rT with Distributed := true }, GotATask := true }) := by
  obtain ⟨hsplit, hlen⟩ := list_split_at t.RTasks i rT hi
  have ha : ∀ x ∈ t.RTasks.take i, x.Distributed = true := by
    intro x hx
    obtain ⟨j, hj, hjx⟩ := mem_take_index _ _ _ hx
    exact hmin j x hj hjx
  have h :=
    GetTask.reduceLoop_first t task (t.RTasks.take i) rT (t.RTasks.drop (i + 1)) 0 ha hd
  rw [← hsplit, hlen, Nat.zero_add] at h
  exact h

theorem GetTask_map_case (t : Tasks) (i : Nat) (mT : MapTask)
    (hi : t.MTasks[i]? = some mT) (hd : mT.Distributed = false)
    (hmin : ∀ j m, j < i → t.MTasks[j]? = some m → m.Distributed = true) :
    GetTask t Task.zero =
      ({ t with MTasks := t.MTasks.set i { mT with Distributed := true } },
       { Task.zero with MTask := { mT with Distributed := true }, GotATask := true,
                        IsMap := true }) := by
  unfold GetTask
  rw [GetTask.mapLoop_index t Task.zero i mT hi hd hmin]
  simp

theorem GetTask_reduce_case (t : Tasks) (hall : ∀ m ∈ t.MTasks, m.Distributed = true)
    (hfin : ∀ m ∈ t.MTasks, m.Finished = true) (i : Nat) (rT : ReduceTask)
    (hi : t.RTasks[i]? = some rT) (hd : rT.Distributed = false)
    (hmin : ∀ j r, j < i → t.RTasks[j]? = some r → r.Distributed = true) :
    GetTask t Task.zero =
      ({ t with RTasks := t.RTasks.set i { rT with Distributed := true } },
       { Task.zero with RTask := { rT with Distributed := true }, GotATask := true,
                        IsMap := false }) := by
  unfold GetTask
  rw [GetTask.mapLoop_none t Task.zero t.MTasks 0 hall]
  have hmf : GetTask.mapsFinished t = true := (GetTask.mapsFinished_iff t).mpr hfin
  simp only [hmf, Task.zero, Bool.not_false, Bool.and_self, if_true]
  rw [GetTask.reduceLoop_index t _ i rT hi hd hmin]

theorem GetTask_none_case (t : Tasks) (hall : ∀ m ∈ t.MTasks, m.Distributed = true)
    (hor : (∃ m ∈ t.MTasks, m.Finished = false) ∨ (∀ r ∈ t.RTasks, r.Distributed = true)) :
    GetTask t Task.zero = (t, Task.zero) := by
  unfold GetTask
  rw [GetTask.mapLoop_none t Task.zero t.MTasks 0 hall]
  rcases hor with ⟨m, hm, hmf⟩ | hr
  · have hnot : GetTask.mapsFinished t = false := by
      cases h : GetTask.mapsFinished t with
      | false => rfl
      | true =>
        have := (GetTask.mapsFinished_iff t).mp h m hm
        rw [hmf] at this
        exact absurd this (by decide)
    simp [hnot]
  · by_cases hc : (GetTask.mapsFinished t && !Task.zero.GotATask) = true
    · simp only [hc, if_true]
      exact GetTask.reduceLoop_none t Task.zero t.RTasks 0 hr
    · simp only [hc]
      rfl

/-- C1. `GetTask` as one actor step on any state, with the zero reply value.
(1) If `i` is the smallest index of a map task with `Distributed = false`, the step sets
exactly `MTasks[i].Distributed` and replies `GotATask = true`, `IsMap = true` and that task.
(2) If every map task is distributed and finished and `i` is the smallest index of a reduce
task with `Distributed = false`, the step sets exactly `RTasks[i].Distributed` and replies
`GotATask = true`, `IsMap = false` and that task.
(3) If every map task is distributed and either some map task is not finished or every
reduce task is distributed, the state is unchanged and the reply has `GotATask = false`. -/
theorem GetTask_contract (t : Tasks) :
    (∀ i mT, t.MTasks[i]? = some mT → mT.Distributed = false →
      (∀ j m, j < i → t.MTasks[j]? = some m → m.Distributed = true) →
      GetTask t Task.zero =
        ({ t with MTasks := t.MTasks.set i { mT with Distributed := true } },
         { Task.zero with MTask := { mT with Distributed := true }, GotATask := true,
                          IsMap := true }))
    ∧ ((∀ m ∈ t.MTasks, m.Distributed = true) → (∀ m ∈ t.MTasks, m.Finished = true) →
      ∀ i rT, t.RTasks[i]? = some rT → rT.Distributed = false →
      (∀ j r, j < i → t.RTasks[j]? = some r → r.Distributed = true) →
      GetTask t Task.zero =
        ({ t with RTasks := t.RTasks.set i { rT with Distributed := true } },
         { Task.zero with RTask := { rT with Distributed := true }, GotATask := true,
                          IsMap := false }))
    ∧ ((∀ m ∈ t.MTasks, m.Distributed = true) →
      ((∃ m ∈ t.MTasks, m.Finished = false) ∨ (∀ r ∈ t.RTasks, r.Distributed = true)) →
      GetTask t Task.zero = (t, Task.zero) ∧ Task.zero.GotATask = false) :=
  ⟨GetTask_map_case t, GetTask_reduce_case t,
    fun hall hor => ⟨GetTask_none_case t hall hor, rfl⟩⟩

/-- Witness of C1 on three concrete states: a fresh master state (map task 0 is handed out),
a state past the map barrier (reduce task 0 is handed out) and a state whose only map task
is distributed but not finished (no task is handed out). -/
theorem GetTask_contract_witness :
    (GetTask (initTasks 2 1 "3410") Task.zero).2.MTask.N = 0
    ∧ (GetTask (initTasks 0 1 "3410") Task.zero).2.RTask.N = 0
    ∧ (GetTask { initTasks 0 0 "3410" with
          MTasks := [{ MapTask.zero with Distributed := true }] } Task.zero).2.GotATask
        = false := by
  refine ⟨?_, ?_, ?_⟩
  · rw [(GetTask_contract (initTasks 2 1 "3410")).1 0
      { M := 2, R := 1, N := 0, SourceHost := "localhost:3410", SourcePort := "3410",
        Distributed := false, Finished := false } rfl rfl
      (fun j _ hj _ => absurd hj (Nat.not_lt_zero j))]
  · rw [(GetTask_contract (initTasks 0 1 "3410")).2.1 (by simp [initTasks])
      (by simp [initTasks]) 0
      { M := 0, R := 1, N := 0, SourceHosts := [], SourcePorts := [], Distributed := false,
        Finished := false, FinishedBy := "", FinishedByPort := "" } rfl rfl
      (fun j _ hj _ => absurd hj (Nat.not_lt_zero j))]
  · rw [((GetTask_contract { initTasks 0 0 "3410" with
        MTasks := [{ MapTask.zero with Distributed := true }] }).2.2
      (by simp) (Or.inl ⟨_, List.mem_singleton_self _, rfl⟩)).1]
    rfl

/-! ## Effect of the notification closures -/

theorem sliceSet_some {α : Type} (xs : List α) (i : Int) (v : α) (ys : List α)
    (h : sliceSet xs i v = some ys) :
    0 ≤ i ∧ i.toNat < xs.length ∧ ys = xs.set i.toNat v := by
  unfold sliceSet at h
  split at h
  · rename_i hc
    simp only [Option.some.injEq] at h
    exact ⟨hc.1, by omega, h.symm⟩
  · exact absurd h (by simp)

theorem sliceSet_of_lt {α : Type} (xs : List α) (k : Nat) (v : α) (h : k < xs.length) :
    sliceSet xs (k : Int) v = some (xs.set k v) := by
  unfold sliceSet
  have : (0 : Int) ≤ k ∧ (k : Int) < xs.length := ⟨by omega, by omega⟩
  simp [this]

theorem sliceGet_some {α : Type} (xs : List α) (i : Int) (x : α) (h : sliceGet xs i = some x) :
    0 ≤ i ∧ xs[i.toNat]? = some x := by
  unfold sliceGet at h
  split at h
  · rename_i hc
    exact ⟨hc, h⟩
  · exact absurd h (by simp)

theorem sliceGet_natCast {α : Type} (xs : List α) (k : Nat) : sliceGet xs (k : Int) = xs[k]? := by
  unfold sliceGet
  simp

theorem NotifyMapFinished.sources_some (n : Notification) (rs rs1 : List ReduceTask)
    (h : NotifyMapFinished.sources n rs = some rs1) :
    rs1 = rs.map (ReduceTask.withSource n.TaskN.toNat n.Address n.Port) := by
  induction rs generalizing rs1 with
  | nil =>
    simp only [NotifyMapFinished.sources, Option.some.injEq] at h
    simp [← h]
  | cons r rest ih =>
    simp only [NotifyMapFinished.sources, Option.bind_eq_some] at h
    obtain ⟨hosts, hh, ports, hp, rest1, hr, heq⟩ := h
    obtain ⟨-, -, hh⟩ := sliceSet_some _ _ _ _ hh
    obtain ⟨-, -, hp⟩ := sliceSet_some _ _ _ _ hp
    simp only [Option.some.injEq] at heq
    rw [← heq, ih rest1 hr, hh, hp]
    rfl

theorem NotifyMapFinished.sources_of_lt (n : Notification) (k : Nat) (hk : n.TaskN = k)
    (rs : List ReduceTask)
    (h : ∀ r ∈ rs, k < r.SourceHosts.length ∧ k < r.SourcePorts.length) :
    NotifyMapFinished.sources n rs =
      some (rs.map (ReduceTask.withSource k n.Address n.Port)) := by
  induction rs with
  | nil => rfl
  | cons r rest ih =>
    have hr := h r (List.mem_cons_self _ _)
    simp only [NotifyMapFinished.sources, hk, sliceSet_of_lt _ _ _ hr.1,
      sliceSet_of_lt _ _ _ hr.2, Option.some_bind]
    rw [ih (fun x hx => h x (List.mem_cons_of_mem _ hx))]
    rfl

theorem NotifyMapFinished_some (n : Notification) (t t1 : Tasks)
    (h : NotifyMapFinished n t = some t1) :
    ∃ mT, 0 ≤ n.TaskN ∧ t.MTasks[n.TaskN.toNat]? = some mT ∧
      t1 = { t with
        MTasks := t.MTasks.set n.TaskN.toNat { mT with Finished := true }
        RTasks := t.RTasks.map (ReduceTask.withSource n.TaskN.toNat n.Address n.Port) } := by
  simp only [NotifyMapFinished, Option.bind_eq_some] at h
  obtain ⟨mT, hm, ms, hms, rs, hrs, heq⟩ := h
  obtain ⟨h0, hm⟩ := sliceGet_some _ _ _ hm
  obtain ⟨-, -, hms⟩ := sliceSet_some _ _ _ _ hms
  have hrs := NotifyMapFinished.sources_some _ _ _ hrs
  simp only [Option.some.injEq] at heq
  exact ⟨mT, h0, hm, by rw [← heq, hms, hrs]⟩

theorem NotifyReduceFinished_some (n : Notification) (t t1 : Tasks)
    (h : NotifyReduceFinished n t = some t1) :
    ∃ rT, 0 ≤ n.TaskN ∧ t.RTasks[n.TaskN.toNat]? = some rT ∧ t1.MTasks = t.MTasks ∧
      t1.RTasks = t.RTasks.set n.TaskN.toNat
        { rT with Finished := true, FinishedBy := n.Address, FinishedByPort := n.Port } := by
  simp only [NotifyReduceFinished, Option.bind_eq_some] at h
  obtain ⟨rT, hr, rs, hrs, heq⟩ := h
  obtain ⟨h0, hr⟩ := sliceGet_some _ _ _ hr
  obtain ⟨-, -, hrs⟩ := sliceSet_some _ _ _ _ hrs
  refine ⟨rT, h0, hr, ?_⟩
  split at heq
  · simp only [Option.bind_eq_some, Option.some.injEq] at heq
    obtain ⟨_, _, heq⟩ := heq
    rw [← heq, hrs]
    exact ⟨rfl, rfl⟩
  · simp only [Option.some.injEq] at heq
    rw [← heq, hrs]
    exact ⟨rfl, rfl⟩

/-! ## One actor step, seen on the task flags -/

/-- Either a Boolean test holds on all of a list, or there is a first element failing it. -/
theorem exists_first_false {α : Type} (p : α → Bool) (l : List α) :
    (∀ x ∈ l, p x = true) ∨
      ∃ (i : Nat) (x : α), l[i]? = some x ∧ p x = false ∧
        ∀ (j : Nat) (y : α), j < i → l[j]? = some y → p y = true := by
  induction l with
  | nil => exact Or.inl (fun x hx => absurd hx (List.not_mem_nil x))
  | cons a rest ih =>
    cases ha : p a with
    | false =>
      exact Or.inr ⟨0, a, by simp, ha, fun j _ hj _ => absurd hj (Nat.not_lt_zero j)⟩
    | true =>
      rcases ih with hall | ⟨i, x, hi, hx, hmin⟩
      · refine Or.inl (fun y hy => ?_)
        rcases List.mem_cons.mp hy with rfl | hy
        · exact ha
        · exact hall y hy
      · refine Or.inr ⟨i + 1, x, by simpa using hi, hx, fun j y hj hy => ?_⟩
        cases j with
        | zero =>
          simp only [List.getElem?_cons_zero, Option.some.injEq] at hy
          rw [← hy]; exact ha
        | succ j =>
          simp only [List.getElem?_cons_succ] at hy
          exact hmin j y (by omega) hy

/-- Storing at index `i` an element with the same image under `f` leaves `map f` unchanged. -/
theorem map_set_same {α β : Type} (f : α → β) (l : List α) (i : Nat) (x y : α)
    (h : l[i]? = some x) (hf : f y = f x) : (l.set i y).map f = l.map f := by
  apply List.ext_getElem?
  intro j
  simp only [List.getElem?_map, List.getElem?_set]
  by_cases hij : i = j
  · subst hij
    obtain ⟨hi, hx⟩ := List.getElem?_eq_some_iff.mp h
    simp [hi, h, hf]
  · simp [hij]

theorem GetTask_cases (t : Tasks) :
    (∃ i mT, t.MTasks[i]? = some mT ∧ mT.Distributed = false ∧
      GetTask t Task.zero =
        ({ t with MTasks := t.MTasks.set i { mT with Distributed := true } },
         { Task.zero with MTask := { mT with Distributed := true }, GotATask := true,
                          IsMap := true }))
    ∨ ((∀ m ∈ t.MTasks, m.Finished = true) ∧ ∃ i rT, t.RTasks[i]? = some rT ∧
      rT.Distributed = false ∧
      GetTask t Task.zero =
        ({ t with RTasks := t.RTasks.set i { rT with Distributed := true } },
         { Task.zero with RTask := { rT with Distributed := true }, GotATask := true,
                          IsMap := false }))
    ∨ GetTask t Task.zero = (t, Task.zero) := by
  rcases exists_first_false (fun m : MapTask => m.Distributed) t.MTasks with
    hall | ⟨i, mT, hi, hd, hmin⟩
  · by_cases hfin : ∀ m ∈ t.MTasks, m.Finished = true
    · rcases exists_first_false (fun r : ReduceTask => r.Distributed) t.RTasks with
        hr | ⟨i, rT, hi, hd, hmin⟩
      · exact Or.inr (Or.inr (GetTask_none_case t hall (Or.inr hr)))
      · exact Or.inr (Or.inl ⟨hfin, i, rT, hi, hd,
          GetTask_reduce_case t hall hfin i rT hi hd hmin⟩)
    · refine Or.inr (Or.inr (GetTask_none_case t hall (Or.inl ?_)))
      push_neg at hfin
      obtain ⟨m, hm, hmf⟩ := hfin
      exact ⟨m, hm, by simpa using hmf⟩
  · exact Or.inl ⟨i, mT, hi, hd, GetTask_map_case t i mT hi hd hmin⟩

theorem actorStep_effect (t t1 : Tasks) (q : Request) (resp : Response)
    (h : actorStep t q = some (t1, resp)) :
    Effect t q t1 resp ∧ t1.mapN = t.mapN ∧ t1.redN = t.redN := by
  cases q with
  | Ping =>
    simp only [actorStep, Option.some.injEq, Prod.mk.injEq] at h
    obtain ⟨rfl, rfl⟩ := h
    exact ⟨Effect.idle _ _ _ rfl rfl rfl rfl (fun k hk => by cases hk), rfl, rfl⟩
  | ShutdownRequest =>
    simp only [actorStep, Option.some.injEq, Prod.mk.injEq] at h
    obtain ⟨rfl, rfl⟩ := h
    refine ⟨Effect.idle _ _ _ ?_ ?_ ?_ ?_ (fun k hk => by cases hk), ?_, ?_⟩ <;>
      (unfold ShutdownRequest; split <;> rfl)
  | GetTask =>
    simp only [actorStep, Option.some.injEq, Prod.mk.injEq] at h
    obtain ⟨rfl, rfl⟩ := h
    rcases GetTask_cases t with ⟨i, mT, hi, hd, hg⟩ | ⟨hfin, i, rT, hi, hd, hg⟩ | hg
    · rw [hg]
      refine ⟨Effect.mapHanded i mT.N _ _ ?_ ?_ ?_ ?_ rfl rfl rfl rfl, ?_, rfl⟩
      · simp [Tasks.mapD, List.getElem?_map, hi, hd]
      · simp [Tasks.mapN, List.getElem?_map, hi]
      · simp [Tasks.mapD, List.map_set]
      · exact map_set_same (fun m : MapTask => m.Finished) _ _ _ _ hi rfl
      · exact map_set_same (fun m : MapTask => m.N) _ _ _ _ hi rfl
    · rw [hg]
      refine ⟨Effect.redHanded i rT.N _ _ ?_ ?_ ?_ rfl rfl ?_ ?_ rfl rfl, rfl, ?_⟩
      · simp [Tasks.redD, List.getElem?_map, hi, hd]
      · simp [Tasks.redN, List.getElem?_map, hi]
      · intro b hb
        simp only [Tasks.mapF, List.mem_map] at hb
        obtain ⟨m, hm, rfl⟩ := hb
        exact hfin m hm
      · simp [Tasks.redD, List.map_set]
      · exact map_set_same (fun r : ReduceTask => r.Finished) _ _ _ _ hi rfl
      · exact map_set_same (fun r : ReduceTask => r.N) _ _ _ _ hi rfl
    · rw [hg]
      exact ⟨Effect.idle _ _ _ rfl rfl rfl rfl
        (fun k hk => by simp only [Response.task.injEq] at hk; rw [← hk]; rfl), rfl, rfl⟩
  | NotifyMapFinished n =>
    simp only [actorStep, Option.map_eq_some', Prod.mk.injEq] at h
    obtain ⟨t2, h2, rfl, rfl⟩ := h
    obtain ⟨mT, h0, hm, rfl⟩ := NotifyMapFinished_some n t t2 h2
    have hlt : n.TaskN.toNat < t.MTasks.length := (List.getElem?_eq_some_iff.mp hm).1
    have hred : ∀ {β : Type} (f : ReduceTask → β),
        (∀ r, f (ReduceTask.withSource n.TaskN.toNat n.Address n.Port r) = f r) →
        (t.RTasks.map (ReduceTask.withSource n.TaskN.toNat n.Address n.Port)).map f =
          t.RTasks.map f := by
      intro β f hf
      rw [List.map_map]
      exact List.map_congr_left (fun r _ => hf r)
    refine ⟨Effect.mapNotified n _ h0 ?_ ?_ ?_ ?_ ?_, ?_, ?_⟩
    · simpa [Tasks.mapF] using hlt
    · exact map_set_same (fun m : MapTask => m.Distributed) _ _ _ _ hm rfl
    · simp [Tasks.mapF, List.map_set]
    · exact hred (fun r => r.Distributed) (fun _ => rfl)
    · exact hred (fun r => r.Finished) (fun _ => rfl)
    · exact map_set_same (fun m : MapTask => m.N) _ _ _ _ hm rfl
    · exact hred (fun r => r.N) (fun _ => rfl)
  | NotifyReduceFinished n =>
    simp only [actorStep, Option.map_eq_some', Prod.mk.injEq] at h
    obtain ⟨t2, h2, rfl, rfl⟩ := h
    obtain ⟨rT, h0, hr, hM, hR⟩ := NotifyReduceFinished_some n t t2 h2
    have hlt : n.TaskN.toNat < t.RTasks.length := (List.getElem?_eq_some_iff.mp hr).1
    refine ⟨Effect.redNotified n _ h0 ?_ ?_ ?_ ?_ ?_, ?_, ?_⟩
    · simpa [Tasks.redF] using hlt
    · simp [Tasks.mapD, hM]
    · simp [Tasks.mapF, hM]
    · rw [Tasks.redD, hR]
      exact map_set_same (fun r : ReduceTask => r.Distributed) _ _ _ _ hr rfl
    · simp [Tasks.redF, hR, List.map_set]
    · simp [Tasks.mapN, hM]
    · rw [Tasks.redN, hR]
      exact map_set_same (fun r : ReduceTask => r.N) _ _ _ _ hr rfl

/-! ## Invariants of the coordinator -/

/-- A property that holds initially and is kept by every successful actor step holds in
every state a sequence of actor steps reaches. -/
theorem actorRun_invariant (P : Tasks → Prop)
    (hstep : ∀ t q t1 resp, P t → actorStep t q = some (t1, resp) → P t1)
    (reqs : List Request) (t0 t : Tasks) (h0 : P t0) (h : actorRun t0 reqs = some t) :
    P t := by
  induction reqs generalizing t0 with
  | nil =>
    simp only [actorRun, Option.some.injEq] at h
    rw [← h]; exact h0
  | cons q rest ih =>
    simp only [actorRun, Option.bind_eq_some] at h
    obtain ⟨⟨t1, resp⟩, hs, hr⟩ := h
    exact ih t1 (hstep t0 q t1 resp h0 hs) hr

/-- The barrier on the flags: a distributed reduce task implies all map tasks finished. -/
theorem barrier_step (t t1 : Tasks) (q : Request) (resp : Response)
    (hb : true ∈ t.redD → ∀ b ∈ t.mapF, b = true) (h : actorStep t q = some (t1, resp)) :
    true ∈ t1.redD → ∀ b ∈ t1.mapF, b = true := by
  obtain ⟨he, -, -⟩ := actorStep_effect t t1 q resp h
  cases he with
  | idle _ _ _ hD hF rD rF _ => rw [rD, hF]; exact hb
  | mapHanded i n _ k _ _ hD hF rD rF _ _ => rw [rD, hF]; exact hb
  | redHanded i n _ k _ _ hall hD hF rD rF _ _ => rw [hF]; exact fun _ => hall
  | mapNotified n _ h0 hlt hD hF rD rF =>
    rw [rD, hF]
    intro hr b hbm
    rcases List.mem_or_eq_of_mem_set hbm with hbm | rfl
    · exact hb hr b hbm
    · rfl
  | redNotified n _ h0 hlt hD hF rD rF => rw [rD, hF]; exact hb

theorem initTasks_mapD (M R : Nat) (port : String) :
    (initTasks M R port).mapD = List.replicate M false := by
  rw [List.eq_replicate_iff]
  simp [initTasks, Tasks.mapD]

theorem initTasks_redD (M R : Nat) (port : String) :
    (initTasks M R port).redD = List.replicate R false := by
  rw [List.eq_replicate_iff]
  simp [initTasks, Tasks.redD]

theorem initTasks_mapF (M R : Nat) (port : String) :
    (initTasks M R port).mapF = List.replicate M false := by
  rw [List.eq_replicate_iff]
  simp [initTasks, Tasks.mapF]

theorem initTasks_redF (M R : Nat) (port : String) :
    (initTasks M R port).redF = List.replicate R false := by
  rw [List.eq_replicate_iff]
  simp [initTasks, Tasks.redF]

/-- C2. Map barrier: in every state reached from the master's initial state (any `M`, `R`)
by a finite sequence of actor steps (`Ping`, `GetTask`, `ShutdownRequest` and notifications
with any task number; a step that panics reaches no state), if some reduce task has
`Distributed = true` then every map task has `Finished = true`. -/
theorem map_barrier (M R : Nat) (port : String) (reqs : List Request) (t : Tasks)
    (h : actorRun (initTasks M R port) reqs = some t) :
    (∃ r ∈ t.RTasks, r.Distributed = true) → ∀ m ∈ t.MTasks, m.Finished = true := by
  have hinv : true ∈ t.redD → ∀ b ∈ t.mapF, b = true := by
    refine actorRun_invariant (fun s => true ∈ s.redD → ∀ b ∈ s.mapF, b = true)
      (fun s q s1 resp hs hq => barrier_step s s1 q resp hs hq) reqs _ t ?_ h
    intro hr
    rw [initTasks_redD] at hr
    exact absurd (List.eq_of_mem_replicate hr) (by decide)
  rintro ⟨r, hr, hd⟩ m hm
  refine hinv ?_ m.Finished ?_
  · exact List.mem_map.mpr ⟨r, hr, hd⟩
  · exact List.mem_map.mpr ⟨m, hm, rfl⟩

/-- Witness of C2: with `M = 1`, `R = 1`, after map task 0 is handed out and notified and
reduce task 0 is handed out, the reduce task is distributed and the map task finished. -/
theorem map_barrier_witness :
    actorRun (initTasks 1 1 "3410")
        [Request.GetTask, Request.NotifyMapFinished exampleNotification, Request.GetTask]
      = some exampleReduceOut ∧
    (exampleReduceOut.RTasks.map fun r => r.Distributed) = [true] ∧
    (exampleReduceOut.MTasks.map fun m => m.Finished) = [true] :=
  ⟨by decide, rfl,
   by
    have h := map_barrier 1 1 "3410"
      [Request.GetTask, Request.NotifyMapFinished exampleNotification, Request.GetTask]
      exampleReduceOut (by decide) ⟨_, List.mem_singleton_self _, rfl⟩
    simp only [exampleReduceOut, exampleMapDone, List.map_cons, List.map_nil,
      h _ (List.mem_singleton_self _)]⟩

/-! ### Task uniqueness -/

/-- Unfolding of the reply trace at the first request. -/
theorem handedOut_cons (t : Tasks) (q : Request) (rest : List Request) :
    getTaskReplies t (q :: rest) =
      match actorStep t q with
      | none => []
      | some (t1, Response.task task) => task :: getTaskReplies t1 rest
      | some (t1, _) => getTaskReplies t1 rest := by
  rw [getTaskReplies]

/-- Task uniqueness from any state whose task numbers are the slice indices: the identities
handed out are pairwise distinct, and each names a task not yet distributed. -/
theorem handedOut_nodup (reqs : List Request) (t : Tasks)
    (hmN : ∀ (i : Nat) (n : Int), t.mapN[i]? = some n → n = i)
    (hrN : ∀ (i : Nat) (n : Int), t.redN[i]? = some n → n = i) :
    (((getTaskReplies t reqs).filter fun k => k.GotATask).map Task.ident).Nodup ∧
    ∀ id ∈ ((getTaskReplies t reqs).filter fun k => k.GotATask).map Task.ident,
      ∃ i : Nat, id.2 = i ∧ (if id.1 then t.mapD else t.redD)[i]? = some false := by
  induction reqs generalizing t with
  | nil => simp [getTaskReplies]
  | cons q rest ih =>
    rw [handedOut_cons]
    cases hs : actorStep t q with
    | none => simp
    | some s =>
      obtain ⟨t1, resp⟩ := s
      obtain ⟨he, hN, hRN⟩ := actorStep_effect t t1 q resp hs
      obtain ⟨ihn, ihav⟩ := ih t1 (by rw [hN]; exact hmN) (by rw [hRN]; exact hrN)
      cases he with
      | idle _ _ _ hD hF rD rF hresp =>
        have hav : ∀ id ∈ ((getTaskReplies t1 rest).filter fun k => k.GotATask).map
            Task.ident,
            ∃ i : Nat, id.2 = i ∧ (if id.1 then t.mapD else t.redD)[i]? = some false := by
          intro id hid
          obtain ⟨i, hi, hf⟩ := ihav id hid
          exact ⟨i, hi, by rw [← hD, ← rD]; exact hf⟩
        cases resp with
        | task k =>
          have hk := hresp k rfl
          simp only [List.filter_cons, hk, Bool.false_eq_true, if_false]
          exact ⟨ihn, hav⟩
        | nothing => exact ⟨ihn, hav⟩
        | shutdown _ => exact ⟨ihn, hav⟩
      | mapHanded i n _ k hdi hni hD hF rD rF hgot hident =>
        have hn : n = i := hmN i n hni
        simp only [List.filter_cons, hgot, if_true, List.map_cons, List.nodup_cons,
          List.mem_cons, hident]
        refine ⟨⟨?_, ihn⟩, ?_⟩
        · intro hmem
          obtain ⟨j, hj, hf⟩ := ihav _ hmem
          simp only [if_true] at hj hf
          have hji : j = i := by
            have : (n : Int) = j := hj
            omega
          subst hji
          rw [hD, List.getElem?_set] at hf
          have hlen : j < t.mapD.length := (List.getElem?_eq_some_iff.mp hdi).1
          simp [hlen] at hf
        · intro id hid
          rcases hid with rfl | hid
          · exact ⟨i, hn, by simpa using hdi⟩
          · obtain ⟨j, hj, hf⟩ := ihav id hid
            refine ⟨j, hj, ?_⟩
            cases hb : id.1 with
            | true =>
              simp only [hb, if_true] at hf ⊢
              rw [hD, List.getElem?_set] at hf
              split at hf
              · split at hf <;> simp at hf
              · exact hf
            | false =>
              simp only [hb, Bool.false_eq_true, if_false] at hf ⊢
              rw [← rD]; exact hf
      | redHanded i n _ k hdi hni hall hD hF rD rF hgot hident =>
        have hn : n = i := hrN i n hni
        simp only [List.filter_cons, hgot, if_true, List.map_cons, List.nodup_cons,
          List.mem_cons, hident]
        refine ⟨⟨?_, ihn⟩, ?_⟩
        · intro hmem
          obtain ⟨j, hj, hf⟩ := ihav _ hmem
          simp only [Bool.false_eq_true, if_false] at hj hf
          have hji : j = i := by
            have : (n : Int) = j := hj
            omega
          subst hji
          rw [rD, List.getElem?_set] at hf
          have hlen : j < t.redD.length := (List.getElem?_eq_some_iff.mp hdi).1
          simp [hlen] at hf
        · intro id hid
          rcases hid with rfl | hid
          · exact ⟨i, hn, by simpa using hdi⟩
          · obtain ⟨j, hj, hf⟩ := ihav id hid
            refine ⟨j, hj, ?_⟩
            cases hb : id.1 with
            | true =>
              simp only [hb, if_true] at hf ⊢
              rw [← hD]; exact hf
            | false =>
              simp only [hb, Bool.false_eq_true, if_false] at hf ⊢
              rw [rD, List.getElem?_set] at hf
              split at hf
              · split at hf <;> simp at hf
              · exact hf
      | mapNotified n _ h0 hlt hD hF rD rF =>
        refine ⟨ihn, fun id hid => ?_⟩
        obtain ⟨i, hi, hf⟩ := ihav id hid
        exact ⟨i, hi, by rw [← hD, ← rD]; exact hf⟩
      | redNotified n _ h0 hlt hD hF rD rF =>
        refine ⟨ihn, fun id hid => ?_⟩
        obtain ⟨i, hi, hf⟩ := ihav id hid
        exact ⟨i, hi, by rw [← hD, ← rD]; exact hf⟩

theorem initTasks_mapN (M R : Nat) (port : String) (i : Nat) (n : Int)
    (h : (initTasks M R port).mapN[i]? = some n) : n = i := by
  simp only [initTasks, Tasks.mapN, List.map_map, List.getElem?_map, Option.map_eq_some']
    at h
  obtain ⟨j, hj, rfl⟩ := h
  have := (List.getElem?_eq_some_iff.mp hj).2
  simp only [List.getElem_range] at this
  simp [this]

theorem initTasks_redN (M R : Nat) (port : String) (i : Nat) (n : Int)
    (h : (initTasks M R port).redN[i]? = some n) : n = i := by
  simp only [initTasks, Tasks.redN, List.map_map, List.getElem?_map, Option.map_eq_some']
    at h
  obtain ⟨j, hj, rfl⟩ := h
  have := (List.getElem?_eq_some_iff.mp hj).2
  simp only [List.getElem_range] at this
  simp [this]

/-- C3. Task uniqueness: for any finite sequence of actor steps from the master's initial
state, the `(IsMap, N)` pairs of the `GetTask` replies with `GotATask = true` (collected up
to the end of the sequence or to the first panic) are pairwise distinct: every map task and
every reduce task is handed out at most once. -/
theorem task_uniqueness (M R : Nat) (port : String) (reqs : List Request) :
    (((getTaskReplies (initTasks M R port) reqs).filter fun k => k.GotATask).map
      Task.ident).Nodup :=
  (handedOut_nodup reqs (initTasks M R port) (initTasks_mapN M R port)
    (initTasks_redN M R port)).1

/-! ### Finished implies Distributed -/

theorem afterDistribution_map (t : Tasks) (n : Notification) (h0 : 0 ≤ n.TaskN)
    (h : (Request.NotifyMapFinished n).afterDistribution t = true) :
    t.mapD[n.TaskN.toNat]? = some true := by
  simp only [Request.afterDistribution, sliceGet, h0, if_true] at h
  cases hm : t.MTasks[n.TaskN.toNat]? with
  | none => rw [hm] at h; exact absurd h (by simp)
  | some m =>
    rw [hm] at h
    simp only at h
    simp [Tasks.mapD, List.getElem?_map, hm, h]

theorem afterDistribution_reduce (t : Tasks) (n : Notification) (h0 : 0 ≤ n.TaskN)
    (h : (Request.NotifyReduceFinished n).afterDistribution t = true) :
    t.redD[n.TaskN.toNat]? = some true := by
  simp only [Request.afterDistribution, sliceGet, h0, if_true] at h
  cases hm : t.RTasks[n.TaskN.toNat]? with
  | none => rw [hm] at h; exact absurd h (by simp)
  | some m =>
    rw [hm] at h
    simp only at h
    simp [Tasks.redD, List.getElem?_map, hm, h]

/-- Setting a flag keeps every flag that was already set. -/
theorem getElem?_set_true (l : List Bool) (i j : Nat) (h : l[j]? = some true) :
    (l.set i true)[j]? = some true := by
  rw [List.getElem?_set]
  have hj : j < l.length := (List.getElem?_eq_some_iff.mp h).1
  split
  · rename_i hij
    subst hij
    simp [hj]
  · exact h

/-- A flag read after a store is either the stored one, at the stored index, or the old. -/
theorem getElem?_set_true_inv (l : List Bool) (i j : Nat)
    (h : (l.set i true)[j]? = some true) : j = i ∨ l[j]? = some true := by
  rw [List.getElem?_set] at h
  split at h
  · rename_i hij
    exact Or.inl hij.symm
  · exact Or.inr h

theorem finishedDistributed_step (t t1 : Tasks) (q : Request) (resp : Response)
    (hg : q.afterDistribution t = true)
    (hinv : (∀ i : Nat, t.mapF[i]? = some true → t.mapD[i]? = some true) ∧
      (∀ i : Nat, t.redF[i]? = some true → t.redD[i]? = some true))
    (h : actorStep t q = some (t1, resp)) :
    (∀ i : Nat, t1.mapF[i]? = some true → t1.mapD[i]? = some true) ∧
      (∀ i : Nat, t1.redF[i]? = some true → t1.redD[i]? = some true) := by
  obtain ⟨he, -, -⟩ := actorStep_effect t t1 q resp h
  cases he with
  | idle _ _ _ hD hF rD rF _ => rw [hD, hF, rD, rF]; exact hinv
  | mapHanded i n _ k _ _ hD hF rD rF _ _ =>
    rw [hD, hF, rD, rF]
    exact ⟨fun j hj => getElem?_set_true _ _ _ (hinv.1 j hj), hinv.2⟩
  | redHanded i n _ k _ _ hall hD hF rD rF _ _ =>
    rw [hD, hF, rD, rF]
    exact ⟨hinv.1, fun j hj => getElem?_set_true _ _ _ (hinv.2 j hj)⟩
  | mapNotified n _ h0 hlt hD hF rD rF =>
    rw [hD, hF, rD, rF]
    refine ⟨fun j hj => ?_, hinv.2⟩
    rcases getElem?_set_true_inv _ _ _ hj with rfl | hj
    · exact afterDistribution_map t n h0 hg
    · exact hinv.1 j hj
  | redNotified n _ h0 hlt hD hF rD rF =>
    rw [hD, hF, rD, rF]
    refine ⟨hinv.1, fun j hj => ?_⟩
    rcases getElem?_set_true_inv _ _ _ hj with rfl | hj
    · exact afterDistribution_reduce t n h0 hg
    · exact hinv.2 j hj

theorem finishedDistributed_run (reqs : List Request) (t0 t : Tasks)
    (hp : followsProtocol t0 reqs = true)
    (hinv : (∀ i : Nat, t0.mapF[i]? = some true → t0.mapD[i]? = some true) ∧
      (∀ i : Nat, t0.redF[i]? = some true → t0.redD[i]? = some true))
    (h : actorRun t0 reqs = some t) :
    (∀ i : Nat, t.mapF[i]? = some true → t.mapD[i]? = some true) ∧
      (∀ i : Nat, t.redF[i]? = some true → t.redD[i]? = some true) := by
  induction reqs generalizing t0 with
  | nil =>
    simp only [actorRun, Option.some.injEq] at h
    rw [← h]; exact hinv
  | cons q rest ih =>
    simp only [actorRun, Option.bind_eq_some] at h
    obtain ⟨⟨t1, resp⟩, hs, hr⟩ := h
    simp only [followsProtocol, hs, Bool.and_eq_true] at hp
    exact ih t1 hp.2 (finishedDistributed_step t0 t1 q resp hp.1 hinv hs) hr

/-- C10, as stated, fails: from the initial state with `M = 1`, `R = 1` the single actor
step `NotifyMapFinished(0)` reaches a state whose map task 0 has `Finished = true` and
`Distributed = false`. -/
theorem finished_implies_distributed_counterexample :
    ∃ t, actorRun (initTasks 1 1 "3410")
        [Request.NotifyMapFinished { TaskN := 0, Address := "10.0.0.2:3411",
                                     Port := "3411" }] = some t ∧
      ∃ m ∈ t.MTasks, m.Finished = true ∧ m.Distributed = false :=
  ⟨{ MTasks := [{ M := 1, R := 1, N := 0, SourceHost := "localhost:3410",
                  SourcePort := "3410", Distributed := false, Finished := true }]
     RTasks := [{ M := 1, R := 1, N := 0, SourceHosts := ["10.0.0.2:3411"],
                  SourcePorts := ["3411"], Distributed := false, Finished := false,
                  FinishedBy := "", FinishedByPort := "" }]
     Finished := false
     AliveWorkers := 0
     FinChannel := 0 },
   by decide, _, List.mem_singleton_self _, rfl, rfl⟩

/-- C10, amended. In every state reached from the master's initial state by a finite
sequence of actor steps in which every notification follows the worker protocol (it names
a task whose `Distributed` flag is set when the notification is served), every map task and
every reduce task with `Finished = true` also has `Distributed = true`. -/
theorem finished_implies_distributed (M R : Nat) (port : String) (reqs : List Request)
    (t : Tasks) (hp : followsProtocol (initTasks M R port) reqs = true)
    (h : actorRun (initTasks M R port) reqs = some t) :
    (∀ m ∈ t.MTasks, m.Finished = true → m.Distributed = true) ∧
      (∀ r ∈ t.RTasks, r.Finished = true → r.Distributed = true) := by
  have hinv := finishedDistributed_run reqs (initTasks M R port) t hp
    ⟨fun i hi => by
        rw [initTasks_mapF] at hi
        obtain ⟨hlt, hv⟩ := List.getElem?_eq_some_iff.mp hi
        simp at hv,
      fun i hi => by
        rw [initTasks_redF] at hi
        obtain ⟨hlt, hv⟩ := List.getElem?_eq_some_iff.mp hi
        simp at hv⟩ h
  constructor
  · intro m hm hf
    obtain ⟨i, hi⟩ := List.getElem?_of_mem hm
    have := hinv.1 i (by simp [Tasks.mapF, List.getElem?_map, hi, hf])
    simpa [Tasks.mapD, List.getElem?_map, hi] using this
  · intro r hr hf
    obtain ⟨i, hi⟩ := List.getElem?_of_mem hr
    have := hinv.2 i (by simp [Tasks.redF, List.getElem?_map, hi, hf])
    simpa [Tasks.redD, List.getElem?_map, hi] using this

/-- Witness of the amended C10: with `M = 1`, `R = 1`, map task 0 is handed out and then
notified; in the state reached it is finished and distributed. -/
theorem finished_implies_distributed_witness :
    followsProtocol (initTasks 1 1 "3410")
        [Request.GetTask, Request.NotifyMapFinished exampleNotification] = true ∧
    actorRun (initTasks 1 1 "3410")
        [Request.GetTask, Request.NotifyMapFinished exampleNotification]
      = some exampleMapDone ∧
    (exampleMapDone.MTasks.map fun m => m.Distributed) = [true] :=
  ⟨by decide, by decide,
   by
    have h := (finished_implies_distributed 1 1 "3410"
      [Request.GetTask, Request.NotifyMapFinished exampleNotification]
      exampleMapDone (by decide) (by decide)).1 _ (List.mem_singleton_self _) rfl
    simp only [exampleMapDone, List.map_cons, List.map_nil, h]⟩

/-! ## Frame of `NotifyMapFinished` -/

/-- Slot `k` of a source vector after the store, and the other slots. -/
theorem set_slots (l : List String) (k : Nat) (v : String) (hk : k < l.length) :
    (l.set k v)[k]? = some v ∧ ∀ j : Nat, j ≠ k → (l.set k v)[j]? = l[j]? := by
  constructor
  · simp [List.getElem?_set, hk]
  · intro j hj
    rw [List.getElem?_set]
    simp [Ne.symm hj]

/-- C9. `NotifyMapFinished(TaskN, Address, Port)` as one actor step, for a task index
`TaskN = k < M` (`M` the number of map tasks) on a state whose reduce tasks have source
vectors of length `M`: the step succeeds; the new state is the old one with
`MTasks[k].Finished = true` and, in every reduce task, slot `k` of `SourceHosts` and of
`SourcePorts` set to `Address` and `Port`. Read off field by field: map task `k` keeps its
other fields, the other map tasks are unchanged, every reduce task keeps its other slots
and all its other fields, and `Finished`, `AliveWorkers`, `FinChannel` are unchanged. -/
theorem NotifyMapFinished_frame (t : Tasks) (n : Notification) (k : Nat)
    (hk : n.TaskN = (k : Int)) (hM : k < t.MTasks.length)
    (hS : ∀ r ∈ t.RTasks, r.SourceHosts.length = t.MTasks.length ∧
      r.SourcePorts.length = t.MTasks.length) :
    ∃ t1 mT, NotifyMapFinished n t = some t1 ∧ t.MTasks[k]? = some mT ∧
      t1 = { t with MTasks := t.MTasks.set k { mT with Finished := true }
                    RTasks := t.RTasks.map (ReduceTask.withSource k n.Address n.Port) } ∧
      t1.MTasks[k]? = some { mT with Finished := true } ∧
      (∀ j : Nat, j ≠ k → t1.MTasks[j]? = t.MTasks[j]?) ∧
      t1.RTasks.length = t.RTasks.length ∧
      (∀ (i : Nat) (rT : ReduceTask), t.RTasks[i]? = some rT →
        ∃ rT1, t1.RTasks[i]? = some rT1 ∧
          rT1.SourceHosts[k]? = some n.Address ∧ rT1.SourcePorts[k]? = some n.Port ∧
          (∀ j : Nat, j ≠ k → rT1.SourceHosts[j]? = rT.SourceHosts[j]? ∧
            rT1.SourcePorts[j]? = rT.SourcePorts[j]?) ∧
          rT1.M = rT.M ∧ rT1.R = rT.R ∧ rT1.N = rT.N ∧
          rT1.Distributed = rT.Distributed ∧ rT1.Finished = rT.Finished ∧
          rT1.FinishedBy = rT.FinishedBy ∧ rT1.FinishedByPort = rT.FinishedByPort) ∧
      t1.Finished = t.Finished ∧ t1.AliveWorkers = t.AliveWorkers ∧
      t1.FinChannel = t.FinChannel := by
  have hget : t.MTasks[k]? = some t.MTasks[k] := List.getElem?_eq_getElem hM
  have hsrc := NotifyMapFinished.sources_of_lt n k hk t.RTasks
    (fun r hr => ⟨by rw [(hS r hr).1]; exact hM, by rw [(hS r hr).2]; exact hM⟩)
  refine ⟨_, t.MTasks[k], ?_, hget, rfl, ?_, ?_, ?_, ?_, rfl, rfl, rfl⟩
  · simp only [NotifyMapFinished, hk, sliceGet_natCast, hget, Option.some_bind,
      sliceSet_of_lt _ _ _ hM, hsrc]
  · simp [List.getElem?_set, hM]
  · intro j hj
    simp [List.getElem?_set, Ne.symm hj]
  · simp
  · intro i rT hi
    have hmem : rT ∈ t.RTasks := by
      obtain ⟨hlt, hv⟩ := List.getElem?_eq_some_iff.mp hi
      rw [← hv]
      exact List.getElem_mem hlt
    have hh := set_slots rT.SourceHosts k n.Address (by rw [(hS rT hmem).1]; exact hM)
    have hp := set_slots rT.SourcePorts k n.Port (by rw [(hS rT hmem).2]; exact hM)
    refine ⟨ReduceTask.withSource k n.Address n.Port rT, ?_, hh.1, hp.1,
      fun j hj => ⟨hh.2 j hj, hp.2 j hj⟩, rfl, rfl, rfl, rfl, rfl, rfl, rfl⟩
    simp [List.getElem?_map, hi]

/-- Witness of C9: `NotifyMapFinished(0)` on the state in which map task 0 of `M = 1`,
`R = 1` has been handed out yields `exampleMapDone`. -/
theorem NotifyMapFinished_frame_witness :
    NotifyMapFinished exampleNotification (GetTask (initTasks 1 1 "3410") Task.zero).1
      = some exampleMapDone := by
  obtain ⟨t1, mT, h1, hm, ht1, -⟩ := NotifyMapFinished_frame
    (GetTask (initTasks 1 1 "3410") Task.zero).1 exampleNotification 0 rfl (by decide)
    (by decide)
  rw [h1, ht1]
  have : mT = { M := 1, R := 1, N := 0, SourceHost := "localhost:3410",
                SourcePort := "3410", Distributed := true, Finished := false } := by
    have h2 : (GetTask (initTasks 1 1 "3410") Task.zero).1.MTasks[0]? = some
        { M := 1, R := 1, N := 0, SourceHost := "localhost:3410",
          SourcePort := "3410", Distributed := true, Finished := false } := by decide
    rw [h2] at hm
    exact (Option.some.inj hm).symm
  subst this
  decide

/-! ## Hash partitioning -/

/-- The hash state after `Write` is the FNV-1 hash continued from the state before. -/
theorem fnv.Write_eq_fnv1 (bytes : List UInt8) (h : Nat) :
    fnv.Write h bytes = fnv1_32 bytes h := by
  induction bytes generalizing h with
  | nil => rfl
  | cons b rest ih =>
    rw [fnv1_32, ← ih]
    rfl

theorem uint32_of_lt (R : Nat) (h : R < 2 ^ 32) : uint32 (R : Int) = R := by
  unfold uint32
  have : ((R : Int) % 2 ^ 32) = R := Int.emod_eq_of_lt (by omega) (by exact_mod_cast h)
  rw [this, Int.toNat_ofNat]

/-- C4, as stated, fails: for the key `a` and `R = 3` the collector computes bucket 2
(FNV-1 of `a` is 84696446), while FNV-1a of `a` (3826002220) modulo 3 is 1. -/
theorem mapCollectPair_bucket_counterexample :
    mapCollectPair.bucket "a" 3 = some 2 ∧ fnv1a_32 (goBytes "a") % 3 = 1 := by
  decide

/-- The bucket index of the collector, for `R` in the unsigned 32-bit range. -/
theorem mapCollectPair.bucket_eq (key : String) (R : Nat) (h1 : 1 ≤ R) (h2 : R < 2 ^ 32) :
    mapCollectPair.bucket key (R : Int) = some ((bucketIndex key R : Nat) : Int) := by
  unfold mapCollectPair.bucket
  have hne : ¬ R = 0 := by omega
  simp only [uint32_of_lt R h2, hne, if_false, fnv.Sum32, fnv.Write_eq_fnv1, fnv.New32,
    fnv.offset32, bucketIndex]

theorem bucketIndex_lt (key : String) (R : Nat) (h1 : 1 ≤ R) : bucketIndex key R < R :=
  Nat.mod_lt _ (by omega)

/-- One pair collected into `R` outputs goes to the output of its bucket. -/
theorem mapCollectPair_cons (pair : Pair) (rest : List Pair) (R : Nat) (h1 : 1 ≤ R)
    (h2 : R < 2 ^ 32) (outputStmts : List (List Pair)) (hlen : outputStmts.length = R) :
    ∃ db, outputStmts[bucketIndex pair.Key R]? = some db ∧
      mapCollectPair outputStmts (R : Int) (pair :: rest) =
        mapCollectPair (outputStmts.set (bucketIndex pair.Key R) (db ++ [pair])) (R : Int)
          rest := by
  have hl : bucketIndex pair.Key R < outputStmts.length := by
    rw [hlen]; exact bucketIndex_lt _ R h1
  refine ⟨outputStmts[bucketIndex pair.Key R], List.getElem?_eq_getElem hl, ?_⟩
  rw [mapCollectPair]
  simp only [mapCollectPair.bucket_eq _ R h1 h2, Option.some_bind, sliceGet_natCast,
    List.getElem?_eq_getElem hl, sliceSet_of_lt _ _ _ hl]

/-- C4, amended. For every key and every `R` with `1 ≤ R < 2^32` (an unsigned 32-bit
value), the bucket index `mapCollectPair` computes is `fnv1_32(key bytes) mod R`, where
`fnv1_32` is the 32-bit FNV-1 hash (multiply by the FNV prime, then xor the byte, from the
offset basis); it is a valid index of the `R` outputs, and a pair with that key is inserted
into that output and no other. -/
theorem mapCollectPair_bucket (key : String) (R : Nat) (h1 : 1 ≤ R) (h2 : R < 2 ^ 32) :
    mapCollectPair.bucket key (R : Int)
        = some ((fnv1_32 (goBytes key) 2166136261 % R : Nat) : Int) ∧
      fnv1_32 (goBytes key) 2166136261 % R < R ∧
      ∀ (value : String) (outputStmts : List (List Pair)), outputStmts.length = R →
        ∃ db, outputStmts[fnv1_32 (goBytes key) 2166136261 % R]? = some db ∧
          mapCollectPair outputStmts (R : Int) [{ Key := key, Value := value }] =
            some (outputStmts.set (fnv1_32 (goBytes key) 2166136261 % R)
              (db ++ [{ Key := key, Value := value }])) := by
  refine ⟨mapCollectPair.bucket_eq key R h1 h2, bucketIndex_lt key R h1,
    fun value outputStmts hlen => ?_⟩
  obtain ⟨db, hdb, hc⟩ := mapCollectPair_cons { Key := key, Value := value } [] R h1 h2
    outputStmts hlen
  exact ⟨db, hdb, by rw [hc]; rfl⟩

/-- Witness of the amended C4: the key `a` with `R = 3` goes to bucket 2. -/
theorem mapCollectPair_bucket_witness :
    mapCollectPair.bucket "a" ((3 : Nat) : Int)
      = some ((fnv1_32 (goBytes "a") 2166136261 % 3 : Nat) : Int) :=
  (mapCollectPair_bucket "a" 3 (by decide) (by decide)).1

/-! ## Split -/

/-- Appending a row to a relation appends it to the round-robin share of its index. -/
theorem roundRobin_snoc (pre : List Pair) (r : Pair) (M j : Nat) :
    roundRobin (pre ++ [r]) M j =
      roundRobin pre M j ++ (if pre.length % M = j then [r] else []) := by
  unfold roundRobin
  rw [List.length_append, List.length_singleton, List.range_succ, List.filter_append,
    List.filterMap_append]
  congr 1
  · apply List.filterMap_congr
    intro x hx
    have hlt : x < pre.length := List.mem_range.mp (List.mem_filter.mp hx).1
    exact List.getElem?_append_left hlt
  · by_cases h : pre.length % M = j
    · simp [List.filter_cons, h]
    · simp [List.filter_cons, h]

/-- Storing `x ++ [r]` over the element `x` adds `r` to the concatenation. -/
theorem flatten_set_perm {α : Type} (l : List (List α)) (j : Nat) (x : List α) (r : α)
    (h : l[j]? = some x) : ((l.set j (x ++ [r])).flatten).Perm (r :: l.flatten) := by
  induction l generalizing j with
  | nil => simp at h
  | cons a rest ih =>
    cases j with
    | zero =>
      simp only [List.getElem?_cons_zero, Option.some.injEq] at h
      subst h
      simp only [List.set_cons_zero, List.flatten_cons, List.append_assoc]
      exact (List.perm_middle).trans (List.Perm.refl _)
    | succ j =>
      simp only [List.getElem?_cons_succ] at h
      simp only [List.set_cons_succ, List.flatten_cons]
      exact ((ih j h).append_left a).trans List.perm_middle

theorem roundRobin_set (pre : List Pair) (r : Pair) (M : Nat) (hM : 1 ≤ M) :
    ((List.range M).map (roundRobin pre M)).set (pre.length % M)
        (roundRobin pre M (pre.length % M) ++ [r]) =
      (List.range M).map (roundRobin (pre ++ [r]) M) := by
  apply List.ext_getElem?
  intro i
  rw [List.getElem?_set]
  simp only [List.getElem?_map, List.length_map, List.length_range]
  by_cases hi : i < M
  · rw [List.getElem?_range hi]
    simp only [Option.map_some']
    by_cases hji : pre.length % M = i
    · subst hji
      simp [roundRobin_snoc, hi]
    · simp [hji, roundRobin_snoc, List.getElem?_range hi]
  · have hn : (List.range M)[i]? = none := by
      rw [List.getElem?_eq_none_iff]; simp; omega
    have hne : ¬ pre.length % M = i := by
      intro h
      exact hi (h ▸ Nat.mod_lt _ (by omega))
    simp [hn, hne]

/-- The scan loop of `splitDatabase` keeps: the outputs are the round-robin shares of the
rows scanned so far and `keysProcessed` counts them. -/
theorem splitDatabase.scan_spec (M : Nat) (hM : 1 ≤ M) (rest pre : List Pair)
    (s : SplitScan) (hout : s.outputDBs = (List.range M).map (roundRobin pre M))
    (hkeys : s.keysProcessed = (pre.length : Int))
    (hidx : ∃ d : Nat, s.databaseIndex = (d : Int) ∧ d % M = pre.length % M) :
    ∃ s1, splitDatabase.scan (M : Int) s rest = some s1 ∧
      s1.outputDBs = (List.range M).map (roundRobin (pre ++ rest) M) ∧
      s1.keysProcessed = ((pre ++ rest).length : Int) := by
  induction rest generalizing pre s with
  | nil => exact ⟨s, rfl, by simpa using hout, by simpa using hkeys⟩
  | cons r rest ih =>
    obtain ⟨d, hd, hdm⟩ := hidx
    have hj : pre.length % M < M := Nat.mod_lt _ (by omega)
    have htmod : s.databaseIndex.tmod (M : Int) = ((pre.length % M : Nat) : Int) := by
      rw [hd, Int.tmod_eq_emod (by omega) (by omega), ← Int.natCast_mod, hdm]
    have hM0 : ¬ (M : Int) = 0 := by omega
    have hlen : pre.length % M < s.outputDBs.length := by
      rw [hout]; simpa using hj
    have hget : s.outputDBs[pre.length % M]? = some (roundRobin pre M (pre.length % M)) := by
      rw [hout, List.getElem?_map, List.getElem?_range hj]; rfl
    have hrow : splitDatabase.row (M : Int) s r =
        some { outputDBs := (List.range M).map (roundRobin (pre ++ [r]) M)
               databaseIndex := ((pre.length % M + 1 : Nat) : Int)
               keysProcessed := ((pre.length + 1 : Nat) : Int) } := by
      unfold splitDatabase.row
      simp only [hM0, if_false, htmod, sliceGet_natCast, hget, Option.some_bind,
        sliceSet_of_lt _ _ _ hlen]
      rw [hout, roundRobin_set pre r M hM, hkeys]
      simp
    obtain ⟨s1, hs1, ho1, hk1⟩ := ih (pre ++ [r])
      { outputDBs := (List.range M).map (roundRobin (pre ++ [r]) M)
        databaseIndex := ((pre.length % M + 1 : Nat) : Int)
        keysProcessed := ((pre.length + 1 : Nat) : Int) } rfl (by simp)
      ⟨pre.length % M + 1, rfl, by simp [Nat.mod_add_mod]⟩
    refine ⟨s1, ?_, by simpa using ho1, by simpa using hk1⟩
    rw [splitDatabase.scan, hrow, Option.some_bind]
    exact hs1

/-- The round-robin shares of a relation, taken together, are its rows. -/
theorem roundRobin_perm (M : Nat) (hM : 1 ≤ M) (rows : List Pair) :
    (((List.range M).map (roundRobin rows M)).flatten).Perm rows := by
  induction rows using List.reverseRecOn with
  | nil =>
    have : (List.range M).map (roundRobin [] M) = (List.range M).map fun _ => [] := by
      apply List.map_congr_left
      intro j _
      simp [roundRobin]
    rw [this]
    have hnil : ∀ n : Nat, (((List.range n).map fun _ => ([] : List Pair)).flatten) = [] := by
      intro n
      simp
    rw [hnil]
  | append_singleton pre r ih =>
    rw [← roundRobin_set pre r M hM]
    have hj : pre.length % M < M := Nat.mod_lt _ (by omega)
    have hget : ((List.range M).map (roundRobin pre M))[pre.length % M]? =
        some (roundRobin pre M (pre.length % M)) := by
      rw [List.getElem?_map, List.getElem?_range hj]; rfl
    refine (flatten_set_perm _ _ _ r hget).trans ?_
    exact ((List.Perm.cons r ih).trans (List.perm_append_singleton r pre).symm)

theorem splitDatabase_some (M : Nat) (hM : 1 ≤ M) (rows : List Pair)
    (outputPattern : Int → String) :
    ∃ res, splitDatabase rows outputPattern (M : Int) = some res ∧
      res.outputs = (List.range M).map (roundRobin rows M) ∧
      res.outputNames.length = M ∧
      (res.errCheck.isSome = true ↔ rows.length < M) := by
  obtain ⟨s1, hs1, ho1, hk1⟩ := splitDatabase.scan_spec M hM rows []
    { outputDBs := (List.range M).map fun _ => [], databaseIndex := 0, keysProcessed := 0 }
    (by
      apply List.map_congr_left
      intro j _
      simp [roundRobin])
    rfl ⟨0, rfl, rfl⟩
  simp only [List.nil_append] at ho1 hk1
  simp only [splitDatabase, Int.toNat_ofNat, hs1, Option.map_some']
  refine ⟨_, rfl, ho1, ?_, ?_⟩
  · simp
  · simp only [hk1]
    by_cases h : rows.length < M
    · have : ((rows.length : Int) < (M : Int)) := by omega
      simp [this, h]
    · have : ¬ ((rows.length : Int) < (M : Int)) := by omega
      simp [this, h]

/-- C6. Round-robin split: for `M ≥ 1` and any input rows `r_0 … r_{n-1}`, `splitDatabase`
returns, there are `M` outputs, output `j` holds exactly the rows `r_i` with `i mod M = j`
in scan order (so each row goes to partition `i mod M` and to no other), and the outputs
taken together are a permutation of the input rows (multiset equality). -/
theorem splitDatabase_round_robin (M : Nat) (hM : 1 ≤ M) (rows : List Pair)
    (outputPattern : Int → String) :
    ∃ res, splitDatabase rows outputPattern (M : Int) = some res ∧
      res.outputs.length = M ∧
      (∀ j : Nat, j < M → res.outputs[j]? = some (roundRobin rows M j)) ∧
      (res.outputs.flatten).Perm rows := by
  obtain ⟨res, hres, hout, -, -⟩ := splitDatabase_some M hM rows outputPattern
  refine ⟨res, hres, by simp [hout], fun j hj => ?_, ?_⟩
  · rw [hout, List.getElem?_map, List.getElem?_range hj]; rfl
  · rw [hout]; exact roundRobin_perm M hM rows

/-- C7. For `M ≥ 1` and an input relation of `n` rows, `splitDatabase` returns; its error
is non-nil exactly when `n < M`, and it returns exactly `M` output names (with or without
an error). -/
theorem splitDatabase_error (M : Nat) (hM : 1 ≤ M) (rows : List Pair)
    (outputPattern : Int → String) :
    ∃ res, splitDatabase rows outputPattern (M : Int) = some res ∧
      (res.errCheck.isSome = true ↔ rows.length < M) ∧
      res.outputNames.length = M := by
  obtain ⟨res, hres, -, hn, he⟩ := splitDatabase_some M hM rows outputPattern
  exact ⟨res, hres, he, hn⟩

/-- Witness of C6: three rows split into `M = 2` shares. -/
theorem splitDatabase_round_robin_witness :
    1 ≤ 2 ∧ ∃ res, splitDatabase exampleRows (fun i => "data/tmp/" ++ mapSourceFile i)
        ((2 : Nat) : Int) = some res ∧
      res.outputs.length = 2 ∧
      (∀ j : Nat, j < 2 → res.outputs[j]? = some (roundRobin exampleRows 2 j)) ∧
      (res.outputs.flatten).Perm exampleRows :=
  ⟨by decide, splitDatabase_round_robin 2 (by decide) exampleRows _⟩

/-- Witness of C7: three rows and `M = 2` give no error, a single row gives one. -/
theorem splitDatabase_error_witness :
    1 ≤ 2 ∧ ∃ res, splitDatabase (exampleRows.take 1) (fun i => "data/tmp/" ++ mapSourceFile i)
        ((2 : Nat) : Int) = some res ∧
      (res.errCheck.isSome = true ↔ (exampleRows.take 1).length < 2) ∧
      res.outputNames.length = 2 :=
  ⟨by decide, splitDatabase_error 2 (by decide) (exampleRows.take 1) _⟩

/-! ## The grouping loop of the reduce task -/

/-- The scan loop from a state with an open stream for the non-empty key `k`. -/
theorem ReduceTask.Process.scan_made (rest : List Pair) (k : String) (sent : List String)
    (calls : List (String × List String)) (hk : k ≠ "")
    (hkeys : ∀ p ∈ rest, p.Key ≠ "") :
    (ReduceTask.Process.scan
      { prevKey := k, newKey := false, valChan := ValChan.made k sent, calls := calls }
      rest).bind (fun s => s.close.map fun s1 => s1.calls) =
      some (calls ++ chunksFrom k sent rest) := by
  induction rest generalizing k sent calls with
  | nil => simp [ReduceTask.Process.scan, ReduceScan.close, chunksFrom]
  | cons p rest ih =>
    have hp : p.Key ≠ "" := hkeys p (List.mem_cons_self _ _)
    have hrest : ∀ q ∈ rest, q.Key ≠ "" := fun q hq => hkeys q (List.mem_cons_of_mem _ hq)
    by_cases hpk : p.Key = k
    · have hrow : ReduceTask.Process.row
          { prevKey := k, newKey := false, valChan := ValChan.made k sent, calls := calls } p
          = some { prevKey := k, newKey := false,
                   valChan := ValChan.made k (sent ++ [p.Value]), calls := calls } := by
        simp [ReduceTask.Process.row, hpk, ReduceScan.send]
      rw [ReduceTask.Process.scan, hrow, Option.some_bind, ih k _ calls hk hrest]
      simp [chunksFrom, hpk]
    · have hkp : k ≠ p.Key := fun h => hpk h.symm
      have hrow : ReduceTask.Process.row
          { prevKey := k, newKey := false, valChan := ValChan.made k sent, calls := calls } p
          = some { prevKey := p.Key, newKey := false,
                   valChan := ValChan.made p.Key [p.Value],
                   calls := calls ++ [(k, sent)] } := by
        simp [ReduceTask.Process.row, hk, hkp, ReduceScan.close, ReduceScan.send]
      rw [ReduceTask.Process.scan, hrow, Option.some_bind, ih p.Key _ _ hp hrest]
      simp [chunksFrom, hpk]

/-- The grouping loop on a non-empty relation without empty keys makes the invocations
`chunksFrom` describes, starting from the first row. -/
theorem ReduceTask.Process.groups_cons (p : Pair) (rest : List Pair)
    (hkeys : ∀ q ∈ p :: rest, q.Key ≠ "") :
    ReduceTask.Process.groups (p :: rest) = some (chunksFrom p.Key [p.Value] rest) := by
  have hp : p.Key ≠ "" := hkeys p (List.mem_cons_self _ _)
  have hrow : ReduceTask.Process.row
      { prevKey := "", newKey := true, valChan := ValChan.nilChan, calls := [] } p
      = some { prevKey := p.Key, newKey := false, valChan := ValChan.made p.Key [p.Value],
               calls := [] } := by
    simp [ReduceTask.Process.row, ReduceScan.send]
  unfold ReduceTask.Process.groups
  rw [ReduceTask.Process.scan, hrow, Option.some_bind,
    ReduceTask.Process.scan_made rest p.Key _ [] hp
      (fun q hq => hkeys q (List.mem_cons_of_mem _ hq))]
  simp

/-! ### The order of the sorted scan -/

theorem textLt_irrefl (a : List Char) : textLt a a = false := by
  induction a with
  | nil => rfl
  | cons c rest ih => simp [textLt, ih]

theorem textLt_trans (a b c : List Char) (hab : textLt a b = true) (hbc : textLt b c = true) :
    textLt a c = true := by
  induction a generalizing b c with
  | nil =>
    cases c with
    | nil => cases b <;> simp [textLt] at hbc
    | cons z cs => rfl
  | cons x as ih =>
    cases b with
    | nil => simp [textLt] at hab
    | cons y bs =>
      cases c with
      | nil => simp [textLt] at hbc
      | cons z cs =>
        simp only [textLt, Bool.or_eq_true, Bool.and_eq_true, decide_eq_true_eq] at hab hbc ⊢
        rcases hab with hxy | ⟨hxy, hab⟩
        · rcases hbc with hyz | ⟨hyz, _⟩
          · exact Or.inl (by omega)
          · exact Or.inl (by omega)
        · rcases hbc with hyz | ⟨hyz, hbc⟩
          · exact Or.inl (by omega)
          · exact Or.inr ⟨by omega, ih bs cs hab hbc⟩

/-- Key order read off the row order: the key of the earlier row is smaller or the same. -/
theorem Pair.le_key (a b : Pair) (h : Pair.le a b = true) :
    textLt a.Key.data b.Key.data = true ∨ a.Key = b.Key := by
  simp only [Pair.le, Bool.or_eq_true, Bool.and_eq_true, decide_eq_true_eq] at h
  rcases h with h | ⟨h, _⟩
  · exact Or.inl h
  · exact Or.inr h

/-! ### Key locality on a sorted relation without empty keys -/

theorem valuesOf_cons_eq (p : Pair) (rest : List Pair) :
    valuesOf p.Key (p :: rest) = p.Value :: valuesOf p.Key rest := by
  simp [valuesOf, List.filter_cons]

theorem valuesOf_cons_ne (k : String) (p : Pair) (rest : List Pair) (h : p.Key ≠ k) :
    valuesOf k (p :: rest) = valuesOf k rest := by
  simp [valuesOf, List.filter_cons, h]

theorem valuesOf_absent (k : String) (rows : List Pair) (h : ∀ p ∈ rows, p.Key ≠ k) :
    valuesOf k rows = [] := by
  induction rows with
  | nil => rfl
  | cons p rest ih =>
    rw [valuesOf_cons_ne k p rest (h p (List.mem_cons_self _ _))]
    exact ih (fun q hq => h q (List.mem_cons_of_mem _ hq))

theorem mem_distinctKeys (k : String) (keys : List String) (h : k ∈ distinctKeys keys) :
    k ∈ keys := by
  induction keys with
  | nil => simp [distinctKeys] at h
  | cons a rest ih =>
    simp only [distinctKeys, List.mem_cons, List.mem_filter] at h
    rcases h with rfl | ⟨h, _⟩
    · exact List.mem_cons_self _ _
    · exact List.mem_cons_of_mem _ (ih h)

theorem distinctKeys_filter_self (k : String) (keys : List String) :
    ((distinctKeys (k :: keys)).filter fun k1 => decide (k1 ≠ k)) =
      (distinctKeys keys).filter fun k1 => decide (k1 ≠ k) := by
  simp [distinctKeys, List.filter_cons, List.filter_filter]

theorem distinctKeys_filter_other (k k2 : String) (keys : List String) (hne : k2 ≠ k)
    (habs : ∀ x ∈ keys, x ≠ k) :
    ((distinctKeys (k2 :: keys)).filter fun k1 => decide (k1 ≠ k)) =
      k2 :: (distinctKeys keys).filter fun k1 => decide (k1 ≠ k2) := by
  simp only [distinctKeys, List.filter_cons, ne_eq, hne, not_false_eq_true, decide_True,
    if_true, List.filter_filter, List.cons.injEq, true_and]
  apply List.filter_congr
  intro k1 hk1
  have : k1 ≠ k := habs k1 (mem_distinctKeys _ _ hk1)
  simp [this]

theorem map_valuesOf_cons (p : Pair) (rest : List Pair) (l : List String)
    (h : ∀ k1 ∈ l, k1 ≠ p.Key) :
    (l.map fun k1 => (k1, valuesOf k1 (p :: rest))) = l.map fun k1 => (k1, valuesOf k1 rest) := by
  apply List.map_congr_left
  intro k1 hk1
  rw [valuesOf_cons_ne k1 p rest (fun heq => h k1 hk1 heq.symm)]

theorem mem_filter_ne (k : String) (l : List String) :
    ∀ k1 ∈ l.filter (fun k1 => decide (k1 ≠ k)), k1 ≠ k := by
  intro k1 hk1
  have := (List.mem_filter.mp hk1).2
  simpa using this

/-- On rows sorted by key, all of key `k` or later, the streams `chunksFrom` makes are: the
stream for `k` extended by the values of the rows of key `k`, then one stream per other
distinct key with the values of its rows. -/
theorem chunksFrom_sorted (rest : List Pair) (k : String) (sent : List String)
    (hge : ∀ p ∈ rest, textLt k.data p.Key.data = true ∨ k = p.Key)
    (hsorted : rest.Pairwise fun a b => Pair.le a b = true) :
    chunksFrom k sent rest =
      (k, sent ++ valuesOf k rest) ::
        ((distinctKeys (rest.map fun p => p.Key)).filter fun k1 => decide (k1 ≠ k)).map
          fun k1 => (k1, valuesOf k1 rest) := by
  induction rest generalizing k sent with
  | nil => simp [chunksFrom, valuesOf, distinctKeys]
  | cons p rest ih =>
    obtain ⟨hp, hs⟩ := List.pairwise_cons.mp hsorted
    have hge_p : ∀ q ∈ rest, textLt p.Key.data q.Key.data = true ∨ p.Key = q.Key :=
      fun q hq => Pair.le_key p q (hp q hq)
    by_cases hpk : p.Key = k
    · subst hpk
      rw [chunksFrom, if_pos rfl, ih p.Key _ hge_p hs, valuesOf_cons_eq, List.map_cons,
        distinctKeys_filter_self, map_valuesOf_cons p rest _ (mem_filter_ne _ _),
        List.append_assoc, List.singleton_append]
    · have hlt : textLt k.data p.Key.data = true := by
        rcases hge p (List.mem_cons_self _ _) with h | h
        · exact h
        · exact absurd h.symm hpk
      have habsent : ∀ q ∈ rest, q.Key ≠ k := by
        intro q hq hqk
        have hkq : textLt k.data q.Key.data = true := by
          rcases hge_p q hq with h | h
          · exact textLt_trans _ _ _ hlt h
          · rw [← h]; exact hlt
        rw [hqk, textLt_irrefl] at hkq
        exact absurd hkq (by decide)
      have habsk : ∀ x ∈ rest.map (fun q => q.Key), x ≠ k := by
        intro x hx
        obtain ⟨q, hq, rfl⟩ := List.mem_map.mp hx
        exact habsent q hq
      rw [chunksFrom, if_neg hpk, ih p.Key _ hge_p hs, valuesOf_cons_ne k p rest hpk,
        valuesOf_absent k rest habsent, List.append_nil, List.map_cons,
        distinctKeys_filter_other k p.Key _ hpk habsk, List.map_cons, valuesOf_cons_eq,
        map_valuesOf_cons p rest _ (mem_filter_ne _ _), List.singleton_append]

/-- Key locality where the grouping loop achieves it: on a non-empty merged input, sorted
by `(key, value)`, in which no key is the empty string, `ReduceTask.Process` invokes the
user `Reduce` exactly once per distinct key, with the values of exactly the rows of that
key, in scan order. -/
theorem ReduceTask.Process.groups_key_locality (rows : List Pair) (hne : rows ≠ [])
    (hkeys : ∀ p ∈ rows, p.Key ≠ "")
    (hsorted : rows.Pairwise fun a b => Pair.le a b = true) :
    ReduceTask.Process.groups rows = some (groupsByKey rows) := by
  cases rows with
  | nil => exact absurd rfl hne
  | cons p rest =>
    obtain ⟨hp, hs⟩ := List.pairwise_cons.mp hsorted
    rw [ReduceTask.Process.groups_cons p rest hkeys,
      chunksFrom_sorted rest p.Key _ (fun q hq => Pair.le_key p q (hp q hq)) hs]
    rw [groupsByKey, List.map_cons, distinctKeys, List.map_cons, valuesOf_cons_eq,
      map_valuesOf_cons p rest _ (mem_filter_ne _ _), List.singleton_append]

/-- Witness of key locality on a sorted input with two keys. -/
theorem ReduceTask.Process.groups_key_locality_witness :
    ReduceTask.Process.groups
        [{ Key := "a", Value := "1" }, { Key := "a", Value := "2" }, { Key := "b", Value := "1" }]
      = some (groupsByKey
        [{ Key := "a", Value := "1" }, { Key := "a", Value := "2" },
         { Key := "b", Value := "1" }]) :=
  ReduceTask.Process.groups_key_locality _ (by decide) (by decide) (by decide)

/-- C5 at a failing input. The merged input `[("", x), (a, y)]` is sorted by `(key, value)`
and has the two distinct keys `""` and `a`; key locality asks for the invocations
`("", [x])` and `(a, [y])`. `ReduceTask.Process` makes a single invocation, for the key
`""`, and streams to it the value `y` of the row of key `a`: the test `prevKey != ""`, meant
to skip the first row, also skips the change from the empty key. -/
theorem ReduceTask.Process.groups_empty_key :
    ([({ Key := "", Value := "x" } : Pair), { Key := "a", Value := "y" }].Pairwise
        fun a b => Pair.le a b = true) ∧
    groupsByKey [{ Key := "", Value := "x" }, { Key := "a", Value := "y" }]
      = [("", ["x"]), ("a", ["y"])] ∧
    ReduceTask.Process.groups [{ Key := "", Value := "x" }, { Key := "a", Value := "y" }]
      = some [("", ["x", "y"])] := by
  decide

/-! ## The word-count job, end to end -/

/-- The repeated-key scenario: an input whose tokens are `a, a, b, a, b, c`, with `M = 1`
and `R = 1`, gives the final relation `(a,3), (b,2), (c,1)`; so does the same text on three
rows with `M = 2`. -/
theorem runJob_repeated_key :
    runJob (Client asciiTables) [{ Key := "_", Value := "a a b a b c" }] 1 1 "tmp3410/"
      = some [{ Key := "a", Value := "3" }, { Key := "b", Value := "2" },
              { Key := "c", Value := "1" }] ∧
    runJob (Client asciiTables) exampleRows 2 1 "tmp3410/"
      = some [{ Key := "a", Value := "3" }, { Key := "b", Value := "2" },
              { Key := "c", Value := "1" }] := by
  decide

/-- The two-word scenario: `the quick brown fox` with `M = 2`, `R = 2` (both buckets
receive words) gives each word once. -/
theorem runJob_four_words :
    runJob (Client asciiTables) [{ Key := "_", Value := "the quick brown fox" }] 2 2
        "tmp3410/"
      = some [{ Key := "fox", Value := "1" }, { Key := "quick", Value := "1" },
              { Key := "the", Value := "1" }, { Key := "brown", Value := "1" }] := by
  decide

/-- C8 at a failing input. For the input `{("_", "a")}` with `M = 1` and `R = 2` the map
task writes the pair `(a, 1)` into output 0 (FNV-1 of `a` is even) and nothing into
output 1; the reduce task for bucket 0 gives `(a, 1)`, but the reduce task for bucket 1
scans no row and panics on `close(valChan)` of the nil channel, so the job does not
complete and no final relation is produced. The claim asks for `{(a, 1)}`. -/
theorem runJob_empty_bucket :
    MapTask.Process (Client asciiTables) 2 [{ Key := "_", Value := "a" }]
      = some [[{ Key := "a", Value := "1" }], []] ∧
    ReduceTask.Process (Client asciiTables) [[{ Key := "a", Value := "1" }]]
      = some [{ Key := "a", Value := "1" }] ∧
    ReduceTask.Process (Client asciiTables) [[]] = none ∧
    runJob (Client asciiTables) [{ Key := "_", Value := "a" }] 1 2 "tmp3410/" = none := by
  decide

/-! ### The map phase -/

/-- Extending entry `j` of a table given by a function on the indices. -/
theorem range_map_set {α : Type} (n j : Nat) (f : Nat → List α) (x : α) :
    ((List.range n).map f).set j (f j ++ [x]) =
      (List.range n).map fun r => f r ++ if r = j then [x] else [] := by
  apply List.ext_getElem?
  intro i
  rw [List.getElem?_set]
  simp only [List.getElem?_map, List.length_map, List.length_range]
  by_cases hi : i < n
  · rw [List.getElem?_range hi]
    by_cases hji : j = i
    · subst hji
      simp [hi]
    · have hij : ¬ i = j := fun h => hji h.symm
      simp [hji, hij, List.getElem?_range hi]
  · have hn : (List.range n)[i]? = none := by
      rw [List.getElem?_eq_none_iff]; simp; omega
    by_cases hji : j = i
    · subst hji
      simp [hn, hi]
    · simp [hn, hji]

theorem inBucket_cons (R r : Nat) (p : Pair) (rest : List Pair) :
    inBucket R r (p :: rest) =
      (if r = bucketIndex p.Key R then [p] else []) ++ inBucket R r rest := by
  unfold inBucket
  by_cases h : bucketIndex p.Key R = r
  · simp [List.filter_cons, h]
  · have h2 : ¬ r = bucketIndex p.Key R := fun e => h e.symm
    simp [List.filter_cons, h, h2]

theorem inBucket_append (R r : Nat) (a b : List Pair) :
    inBucket R r (a ++ b) = inBucket R r a ++ inBucket R r b := by
  simp [inBucket, List.filter_append]

/-- The collector on outputs given by index: every output gains the pairs of its bucket. -/
theorem mapCollectPair_range (R : Nat) (h1 : 1 ≤ R) (h2 : R < 2 ^ 32) (pairs : List Pair)
    (f : Nat → List Pair) :
    mapCollectPair ((List.range R).map f) (R : Int) pairs =
      some ((List.range R).map fun r => f r ++ inBucket R r pairs) := by
  induction pairs generalizing f with
  | nil => simp [mapCollectPair, inBucket]
  | cons p rest ih =>
    obtain ⟨db, hdb, hc⟩ := mapCollectPair_cons p rest R h1 h2 ((List.range R).map f)
      (by simp)
    have hb : bucketIndex p.Key R < R := bucketIndex_lt _ R h1
    have hdbf : db = f (bucketIndex p.Key R) := by
      rw [List.getElem?_map, List.getElem?_range hb] at hdb
      exact (Option.some.inj hdb).symm
    rw [hc, hdbf, range_map_set, ih]
    congr 1
    apply List.map_congr_left
    intro r _
    rw [inBucket_cons, List.append_assoc]

/-- The scan loop of the map task on outputs given by index. -/
theorem MapTask.Process.scan_range (client : Interface) (R : Nat) (h1 : 1 ≤ R)
    (h2 : R < 2 ^ 32) (rows : List Pair) (f : Nat → List Pair) :
    MapTask.Process.scan client (R : Int) ((List.range R).map f) rows =
      some ((List.range R).map fun r => f r ++ inBucket R r (emitted client rows)) := by
  induction rows generalizing f with
  | nil => simp [MapTask.Process.scan, emitted, inBucket]
  | cons row rest ih =>
    rw [MapTask.Process.scan, mapCollectPair_range R h1 h2, Option.some_bind, ih]
    congr 1
    apply List.map_congr_left
    intro r _
    simp [emitted, inBucket_append, List.append_assoc]

/-- The map task writes into output `r` the emitted pairs of bucket `r`, in scan order. -/
theorem MapTask.Process_eq (client : Interface) (R : Nat) (h1 : 1 ≤ R) (h2 : R < 2 ^ 32)
    (rows : List Pair) :
    MapTask.Process client (R : Int) rows =
      some ((List.range R).map fun r => inBucket R r (emitted client rows)) := by
  unfold MapTask.Process
  rw [Int.toNat_ofNat, MapTask.Process.scan_range client R h1 h2]
  simp

/-- All task runs succeed when each of them does. -/
theorem allTasks_map_some {α β : Type} (l : List α) (g : α → Option β) (g1 : α → β)
    (h : ∀ x ∈ l, g x = some (g1 x)) : allTasks (l.map g) = some (l.map g1) := by
  induction l with
  | nil => rfl
  | cons a rest ih =>
    rw [List.map_cons, h a (List.mem_cons_self _ _), allTasks,
      ih (fun x hx => h x (List.mem_cons_of_mem _ hx))]
    rfl

/-! ### The sorted scan is sorted -/

theorem textLt_total (a b : List Char) :
    textLt a b = true ∨ a = b ∨ textLt b a = true := by
  induction a generalizing b with
  | nil =>
    cases b with
    | nil => exact Or.inr (Or.inl rfl)
    | cons y bs => exact Or.inl rfl
  | cons x as ih =>
    cases b with
    | nil => exact Or.inr (Or.inr rfl)
    | cons y bs =>
      simp only [textLt, Bool.or_eq_true, Bool.and_eq_true, decide_eq_true_eq,
        List.cons.injEq]
      rcases Nat.lt_trichotomy x.toNat y.toNat with h | h | h
      · exact Or.inl (Or.inl h)
      · have hxy : x = y := Char.ext (UInt32.ext h)
        rcases ih bs with h1 | h1 | h1
        · exact Or.inl (Or.inr ⟨h, h1⟩)
        · exact Or.inr (Or.inl ⟨hxy, h1⟩)
        · exact Or.inr (Or.inr (Or.inr ⟨h.symm, h1⟩))
      · exact Or.inr (Or.inr (Or.inl h))

theorem textLt_asymm (a b : List Char) (hab : textLt a b = true) : textLt b a = false := by
  cases h : textLt b a with
  | false => rfl
  | true =>
    have := textLt_trans a b a hab h
    rw [textLt_irrefl] at this
    exact absurd this (by decide)

theorem Pair.le_total (a b : Pair) : Pair.le a b = true ∨ Pair.le b a = true := by
  simp only [Pair.le, Bool.or_eq_true, Bool.and_eq_true, decide_eq_true_eq,
    Bool.not_eq_true']
  rcases textLt_total a.Key.data b.Key.data with h | h | h
  · exact Or.inl (Or.inl h)
  · have hk : a.Key = b.Key := String.ext h
    cases hv : textLt b.Value.data a.Value.data with
    | false => exact Or.inl (Or.inr ⟨hk, rfl⟩)
    | true => exact Or.inr (Or.inr ⟨hk.symm, textLt_asymm _ _ hv⟩)
  · exact Or.inr (Or.inl h)

theorem Pair.le_trans (a b c : Pair) (hab : Pair.le a b = true) (hbc : Pair.le b c = true) :
    Pair.le a c = true := by
  simp only [Pair.le, Bool.or_eq_true, Bool.and_eq_true, decide_eq_true_eq,
    Bool.not_eq_true'] at hab hbc ⊢
  rcases hab with h1 | ⟨h1, v1⟩
  · rcases hbc with h2 | ⟨h2, _⟩
    · exact Or.inl (textLt_trans _ _ _ h1 h2)
    · exact Or.inl (by rw [← h2]; exact h1)
  · rcases hbc with h2 | ⟨h2, v2⟩
    · exact Or.inl (by rw [h1]; exact h2)
    · refine Or.inr ⟨h1.trans h2, ?_⟩
      cases hca : textLt c.Value.data a.Value.data with
      | false => rfl
      | true =>
        rcases textLt_total b.Value.data c.Value.data with h | h | h
        · have := textLt_trans _ _ _ h hca
          rw [v1] at this
          exact absurd this (by decide)
        · rw [← h, v1] at hca
          exact absurd hca (by decide)
        · rw [v2] at h
          exact absurd h (by decide)

/-- The rows of the sorted scan are a permutation of the relation and are in order. -/
theorem orderByKeyValue_spec (rows : List Pair) :
    (orderByKeyValue rows).Perm rows ∧
      (orderByKeyValue rows).Pairwise fun a b => Pair.le a b = true := by
  have htotal : IsTotal Pair (fun a b => Pair.le a b = true) := ⟨Pair.le_total⟩
  have htrans : IsTrans Pair (fun a b => Pair.le a b = true) := ⟨Pair.le_trans⟩
  exact ⟨List.perm_insertionSort _ rows, List.sorted_insertionSort _ rows⟩

/-! ### The reduce phase of the word count -/

theorem strconvAtoi_one : strconvAtoi "1" = some 1 := by decide

theorem wrapInt_of_range (x : Int) (h0 : 0 ≤ x) (h1 : x < 2 ^ 63) : wrapInt x = x := by
  unfold wrapInt
  omega

/-- The loop of `Client.Reduce` on a stream of `n` values `1`: it receives them all and
emits the count. -/
theorem Client.Reduce.loop_ones (key : String) (n : Nat) (count : Nat) (received : Nat)
    (h : count + n < 2 ^ 63) :
    Client.Reduce.loop key (count : Int) received (List.replicate n "1") =
      { output := [{ Key := key, Value := strconvItoa ((count + n : Nat) : Int) }],
        received := received + n } := by
  induction n generalizing count received with
  | zero => simp [Client.Reduce.loop]
  | succ n ih =>
    rw [List.replicate_succ, Client.Reduce.loop, strconvAtoi_one]
    simp only
    have hw : wrapInt ((count : Int) + 1) = ((count + 1 : Nat) : Int) := by
      rw [wrapInt_of_range _ (by omega) (by omega)]
      simp
    rw [hw, ih (count + 1) (received + 1) (by omega)]
    have e1 : count + 1 + n = count + (n + 1) := by omega
    have e2 : received + 1 + n = received + (n + 1) := by omega
    rw [e1, e2]

/-- The outputs of the word-count `Reduce` calls on streams of values `1`. -/
theorem ReduceTask.Process.collect_ones (u : UnicodeTables)
    (groups : List (String × List String))
    (h : ∀ g ∈ groups, g.2 = List.replicate g.2.length "1" ∧ g.2.length < 2 ^ 63) :
    ReduceTask.Process.collect (Client u) groups =
      some (groups.map fun g =>
        { Key := g.1, Value := strconvItoa ((g.2.length : Nat) : Int) }) := by
  induction groups with
  | nil => rfl
  | cons g rest ih =>
    obtain ⟨k, vs⟩ := g
    obtain ⟨hrep, hlen⟩ := h (k, vs) (List.mem_cons_self _ _)
    have hrun : (Client u).Reduce k vs =
        { output := [{ Key := k, Value := strconvItoa ((vs.length : Nat) : Int) }],
          received := vs.length } := by
      show Client.Reduce k vs = _
      unfold Client.Reduce
      simp only at hrep
      have := Client.Reduce.loop_ones k vs.length 0 0 (by simpa using hlen)
      rw [← hrep] at this
      simpa using this
    rw [ReduceTask.Process.collect, hrun]
    simp only [lt_self_iff_false, if_false]
    rw [ih (fun g hg => h g (List.mem_cons_of_mem _ hg))]
    rfl

theorem mem_distinctKeys_iff (k : String) (keys : List String) :
    k ∈ distinctKeys keys ↔ k ∈ keys := by
  refine ⟨mem_distinctKeys k keys, fun h => ?_⟩
  induction keys with
  | nil => exact absurd h (List.not_mem_nil k)
  | cons a rest ih =>
    by_cases hka : k = a
    · subst hka
      exact List.mem_cons_self _ _
    · rcases List.mem_cons.mp h with h | h
      · exact absurd h hka
      · exact List.mem_cons_of_mem _ (List.mem_filter.mpr ⟨ih h, by simpa using hka⟩)

theorem nodup_distinctKeys (keys : List String) : (distinctKeys keys).Nodup := by
  induction keys with
  | nil => exact List.nodup_nil
  | cons a rest ih =>
    rw [distinctKeys, List.nodup_cons]
    refine ⟨fun h => ?_, ih.filter _⟩
    have := (List.mem_filter.mp h).2
    simp at this

/-- On rows whose values are all `1`, the stream of a key is as many `1` as the key has
rows. -/
theorem valuesOf_ones (k : String) (rows : List Pair) (h : ∀ p ∈ rows, p.Value = "1") :
    valuesOf k rows = List.replicate ((rows.map fun p => p.Key).count k) "1" := by
  induction rows with
  | nil => rfl
  | cons p rest ih =>
    have hp : p.Value = "1" := h p (List.mem_cons_self _ _)
    have ih1 := ih (fun q hq => h q (List.mem_cons_of_mem _ hq))
    by_cases hk : p.Key = k
    · subst hk
      rw [valuesOf_cons_eq, ih1, hp, List.map_cons, List.count_cons_self,
        List.replicate_succ]
    · rw [valuesOf_cons_ne k p rest hk, ih1, List.map_cons,
        List.count_cons_of_ne (fun e => hk e.symm)]

/-- The reduce task of the word count on a non-empty merged input whose keys are non-empty
and whose values are all `1`: one output pair per distinct key, with the number of rows of
that key. -/
theorem ReduceTask.Process_ones (u : UnicodeTables) (sources : List (List Pair))
    (hne : sources.flatten ≠ [])
    (hrows : ∀ p ∈ sources.flatten, p.Key ≠ "" ∧ p.Value = "1")
    (hlen : sources.flatten.length < 2 ^ 63) :
    ReduceTask.Process (Client u) sources =
      some ((distinctKeys ((orderByKeyValue sources.flatten).map fun p => p.Key)).map
        fun k => { Key := k,
                   Value := strconvItoa
                     (((sources.flatten.map fun p => p.Key).count k : Nat) : Int) }) := by
  obtain ⟨hperm, hsorted⟩ := orderByKeyValue_spec sources.flatten
  have hmem : ∀ p ∈ orderByKeyValue sources.flatten, p.Key ≠ "" ∧ p.Value = "1" :=
    fun p hp => hrows p (hperm.mem_iff.mp hp)
  have hne1 : orderByKeyValue sources.flatten ≠ [] := by
    intro h
    rw [h] at hperm
    exact hne (List.Perm.nil_eq hperm).symm
  have hcount : ∀ k, ((orderByKeyValue sources.flatten).map fun p => p.Key).count k =
      (sources.flatten.map fun p => p.Key).count k :=
    fun k => (hperm.map _).count_eq k
  unfold ReduceTask.Process
  rw [ReduceTask.Process.groups_key_locality _ hne1 (fun p hp => (hmem p hp).1) hsorted,
    Option.some_bind, ReduceTask.Process.collect_ones]
  · rw [groupsByKey, List.map_map]
    congr 1
    apply List.map_congr_left
    intro k _
    simp only [Function.comp, valuesOf_ones k _ (fun p hp => (hmem p hp).2),
      List.length_replicate, hcount]
  · intro g hg
    rw [groupsByKey] at hg
    obtain ⟨k, _, rfl⟩ := List.mem_map.mp hg
    simp only [valuesOf_ones k _ (fun p hp => (hmem p hp).2), List.length_replicate,
      true_and]
    calc ((orderByKeyValue sources.flatten).map fun p => p.Key).count k
        ≤ ((orderByKeyValue sources.flatten).map fun p => p.Key).length := List.count_le_length _ _
      _ = sources.flatten.length := by rw [List.length_map, hperm.length_eq]
      _ < 2 ^ 63 := hlen

/-! ### The job -/

/-- Every pair the word-count `Map` emits has a non-empty key and the value `1`. -/
theorem Client.emitted_spec (u : UnicodeTables) (rows : List Pair) (p : Pair)
    (h : p ∈ emitted (Client u) rows) : p.Key ≠ "" ∧ p.Value = "1" := by
  simp only [emitted, List.mem_flatMap] at h
  obtain ⟨row, _, hp⟩ := h
  change p ∈ Client.Map u row.Key row.Value at hp
  simp only [Client.Map, List.mem_filterMap] at hp
  obtain ⟨elt, _, he⟩ := hp
  split at he
  · rename_i hlen
    simp only [Option.some.injEq] at he
    subst he
    refine ⟨fun hk => ?_, rfl⟩
    simp only at hk
    rw [hk] at hlen
    simp at hlen
  · exact absurd he (by simp)

theorem emitted_flatten (client : Interface) (shards : List (List Pair)) :
    emitted client shards.flatten = (shards.map (emitted client)).flatten := by
  induction shards with
  | nil => rfl
  | cons a rest ih =>
    simp only [List.flatten_cons, List.map_cons, ← ih]
    simp [emitted, List.flatMap_append]

theorem inBucket_flatten (R r : Nat) (L : List (List Pair)) :
    inBucket R r L.flatten = (L.map (inBucket R r)).flatten := by
  unfold inBucket
  exact List.filter_flatten _ L

/-- The merged input of reduce task `r`: the emitted pairs of bucket `r`. -/
theorem reduce_sources (client : Interface) (R r : Nat) (hr : r < R)
    (shards : List (List Pair)) :
    ((shards.map fun rows =>
        (List.range R).map fun r1 => inBucket R r1 (emitted client rows)).map
      fun outs => (outs[r]?).getD []).flatten =
      inBucket R r (emitted client shards.flatten) := by
  rw [emitted_flatten, inBucket_flatten, List.map_map, List.map_map]
  congr 1
  apply List.map_congr_left
  intro rows _
  simp [List.getElem?_map, List.getElem?_range hr]

theorem inBucket_keys (R r : Nat) (pairs : List Pair) :
    (inBucket R r pairs).map (fun p => p.Key) =
      (pairs.map fun p => p.Key).filter fun k => decide (bucketIndex k R = r) := by
  induction pairs with
  | nil => rfl
  | cons p rest ih =>
    by_cases h : bucketIndex p.Key R = r
    · simp [inBucket, List.filter_cons, h] at ih ⊢
      exact ih
    · simp [inBucket, List.filter_cons, h] at ih ⊢
      exact ih

/-- End-to-end word count where the job completes. For any input relation `I`, `M ≥ 1` and
`1 ≤ R < 2^32` such that every bucket receives at least one word (and the number of words
is below `2^63`), the job completes and the final relation is, as a multiset, one pair
`(w, decimal count of w)` per distinct normalised word `w` of the values of `I`. -/
theorem runJob_word_count (u : UnicodeTables) (I : List Pair) (M R : Nat) (tempDir : String)
    (hM : 1 ≤ M) (hR1 : 1 ≤ R) (hR2 : R < 2 ^ 32)
    (hbuckets : ∀ r : Nat, r < R → ∃ w ∈ wordsOf u I, bucketIndex w R = r)
    (hcount : (wordsOf u I).length < 2 ^ 63) :
    ∃ final, runJob (Client u) I (M : Int) (R : Int) tempDir = some final ∧
      final.Perm (wordCounts u I) := by
  obtain ⟨res, hres, hout, -, -⟩ :=
    splitDatabase_some M hM I (fun i => "data/" ++ tempDir ++ mapSourceFile i)
  have hshards : (res.outputs.flatten).Perm I := by
    rw [hout]; exact roundRobin_perm M hM I
  -- the pairs emitted on the shards are the pairs emitted on the input, up to order
  have hE : (emitted (Client u) res.outputs.flatten).Perm (emitted (Client u) I) :=
    hshards.flatMap_right _
  have hwords : ∀ k, ((emitted (Client u) res.outputs.flatten).map fun p => p.Key).count k =
      (wordsOf u I).count k := fun k => (hE.map _).count_eq k
  -- the map phase
  have hmap : allTasks (res.outputs.map (MapTask.Process (Client u) (R : Int))) =
      some (res.outputs.map fun rows =>
        (List.range R).map fun r1 => inBucket R r1 (emitted (Client u) rows)) :=
    allTasks_map_some _ _ _ (fun rows _ => MapTask.Process_eq (Client u) R hR1 hR2 rows)
  -- the reduce phase
  have hkeys : ∀ r : Nat, r < R → ∀ k : String,
      k ∈ (inBucket R r (emitted (Client u) res.outputs.flatten)).map (fun p => p.Key) ↔
        k ∈ wordsOf u I ∧ bucketIndex k R = r := by
    intro r _ k
    rw [inBucket_keys, List.mem_filter, (hE.map fun p => p.Key).mem_iff]
    simp [wordsOf]
  have hred : ∀ r ∈ List.range R,
      ReduceTask.Process (Client u)
        ((res.outputs.map fun rows =>
          (List.range R).map fun r1 => inBucket R r1 (emitted (Client u) rows)).map
          fun outs => (outs[r]?).getD []) =
      some ((distinctKeys ((orderByKeyValue
          (inBucket R r (emitted (Client u) res.outputs.flatten))).map fun p => p.Key)).map
        fun k => { Key := k, Value := strconvItoa (((wordsOf u I).count k : Nat) : Int) }) := by
    intro r hr
    have hr : r < R := List.mem_range.mp hr
    have hsrc := reduce_sources (Client u) R r hr res.outputs
    have hsub : ∀ p ∈ inBucket R r (emitted (Client u) res.outputs.flatten),
        p ∈ emitted (Client u) res.outputs.flatten :=
      fun p hp => (List.mem_filter.mp hp).1
    rw [ReduceTask.Process_ones u _
      (by
        rw [hsrc]
        obtain ⟨w, hw, hb⟩ := hbuckets r hr
        have : w ∈ (inBucket R r (emitted (Client u) res.outputs.flatten)).map
            (fun p => p.Key) := (hkeys r hr w).mpr ⟨hw, hb⟩
        intro hnil
        rw [hnil] at this
        exact absurd this (List.not_mem_nil _))
      (by
        rw [hsrc]
        exact fun p hp => Client.emitted_spec u _ p (hsub p hp))
      (by
        rw [hsrc]
        calc (inBucket R r (emitted (Client u) res.outputs.flatten)).length
            ≤ (emitted (Client u) res.outputs.flatten).length := List.length_filter_le _ _
          _ = (wordsOf u I).length := by rw [hE.length_eq, wordsOf, List.length_map]
          _ < 2 ^ 63 := hcount)]
    rw [hsrc]
    congr 1
    apply List.map_congr_left
    intro k hk
    have hk1 : k ∈ (inBucket R r (emitted (Client u) res.outputs.flatten)).map
        (fun p => p.Key) :=
      ((orderByKeyValue_spec _).1.map _).mem_iff.mp ((mem_distinctKeys_iff _ _).mp hk)
    have hb : bucketIndex k R = r := ((hkeys r hr k).mp hk1).2
    rw [inBucket_keys, List.count_filter (by simpa using hb), hwords]
  have hreduce := allTasks_map_some (List.range R) _ _ hred
  unfold runJob
  rw [hres, Option.some_bind, hmap, Option.some_bind, Int.toNat_ofNat, hreduce,
    Option.some_bind]
  refine ⟨_, rfl, ?_⟩
  · -- both sides have pairwise distinct keys and the same members
    have hkeyOut : ∀ r : Nat, r < R → ∀ k : String,
        k ∈ distinctKeys ((orderByKeyValue
          (inBucket R r (emitted (Client u) res.outputs.flatten))).map fun p => p.Key) ↔
          k ∈ wordsOf u I ∧ bucketIndex k R = r := by
      intro r hr k
      rw [mem_distinctKeys_iff, ((orderByKeyValue_spec _).1.map _).mem_iff]
      exact hkeys r hr k
    have hnodupR : ((List.range R).map fun r =>
        (distinctKeys ((orderByKeyValue
          (inBucket R r (emitted (Client u) res.outputs.flatten))).map fun p => p.Key)).map
        fun k => ({ Key := k,
                    Value := strconvItoa (((wordsOf u I).count k : Nat) : Int) } : Pair)
        ).flatten.Nodup := by
      apply List.Nodup.of_map (fun p : Pair => p.Key)
      rw [List.map_flatten, List.map_map, List.nodup_flatten]
      constructor
      · intro l hl
        obtain ⟨r, _, rfl⟩ := List.mem_map.mp hl
        simp only [Function.comp, List.map_map]
        have : (fun k : String => k) = (fun p : Pair => p.Key) ∘ fun k =>
            ({ Key := k,
               Value := strconvItoa (((wordsOf u I).count k : Nat) : Int) } : Pair) := rfl
        rw [← this, List.map_id']
        exact nodup_distinctKeys _
      · rw [List.pairwise_map]
        refine (List.pairwise_lt_range R).imp_of_mem ?_
        intro r1 r2 h1 h2 hlt
        have h1 : r1 < R := List.mem_range.mp h1
        have h2 : r2 < R := List.mem_range.mp h2
        intro k hk1 hk2
        simp only [Function.comp, List.map_map, List.mem_map] at hk1 hk2
        obtain ⟨k1, hk1, rfl⟩ := hk1
        obtain ⟨k2, hk2, he⟩ := hk2
        have he2 : k2 = k1 := he
        subst he2
        have b1 := ((hkeyOut r1 h1 _).mp hk1).2
        have b2 := ((hkeyOut r2 h2 _).mp hk2).2
        omega
    have hnodupW : (wordCounts u I).Nodup := by
      apply List.Nodup.of_map (fun p : Pair => p.Key)
      rw [wordCounts, List.map_map]
      have : (fun k : String => k) = (fun p : Pair => p.Key) ∘ fun w =>
          ({ Key := w,
             Value := strconvItoa (((wordsOf u I).count w : Nat) : Int) } : Pair) := rfl
      rw [← this, List.map_id']
      exact nodup_distinctKeys _
    rw [List.perm_ext_iff_of_nodup hnodupR hnodupW]
    intro p
    simp only [List.mem_flatten, List.mem_map, List.mem_range, wordCounts]
    constructor
    · rintro ⟨l, ⟨r, hr, rfl⟩, hp⟩
      obtain ⟨k, hk, rfl⟩ := List.mem_map.mp hp
      exact ⟨k, (mem_distinctKeys_iff _ _).mpr ((hkeyOut r hr k).mp hk).1, rfl⟩
    · rintro ⟨k, hk, rfl⟩
      have hkw : k ∈ wordsOf u I := (mem_distinctKeys_iff _ _).mp hk
      have hb : bucketIndex k R < R := bucketIndex_lt k R hR1
      exact ⟨_, ⟨bucketIndex k R, hb, rfl⟩,
        List.mem_map.mpr ⟨k, (hkeyOut _ hb k).mpr ⟨hkw, rfl⟩, rfl⟩⟩

/-- Witness of the end-to-end word count: the tokens `a, a, b, a, b, c` with `M = 1`,
`R = 1`. -/
theorem runJob_word_count_witness :
    ∃ final, runJob (Client asciiTables) [{ Key := "_", Value := "a a b a b c" }]
        ((1 : Nat) : Int) ((1 : Nat) : Int) "tmp3410/" = some final ∧
      final.Perm (wordCounts asciiTables [{ Key := "_", Value := "a a b a b c" }]) :=
  runJob_word_count asciiTables [{ Key := "_", Value := "a a b a b c" }] 1 1 "tmp3410/"
    (by decide) (by decide) (by decide)
    (fun r hr => ⟨"a", by decide, by
      have : r = 0 := by omega
      subst this
      decide⟩)
    (by decide)

/-- The counts of the distinct words add up to the number of words. -/
theorem wordCounts_sum (u : UnicodeTables) (I : List Pair) :
    ((distinctKeys (wordsOf u I)).map fun w => (wordsOf u I).count w).sum =
      (wordsOf u I).length := by
  have hperm : (distinctKeys (wordsOf u I)).Perm (wordsOf u I).dedup := by
    rw [List.perm_ext_iff_of_nodup (nodup_distinctKeys _) (List.nodup_dedup _)]
    intro k
    rw [mem_distinctKeys_iff, List.mem_dedup]
  rw [(hperm.map _).sum_eq]
  exact List.sum_map_count_dedup_eq_length _

/-! ## `ShutdownRequest` -/

/-- C13. `ShutdownRequest` as one actor step on any state, with any reply value: the reply
has `Ok = Tasks.Finished`; when `Ok` is true `AliveWorkers` is decremented by one (the Go
statement `t.AliveWorkers -= 1` on a 64-bit int: the new value is `AliveWorkers - 1` for
every value above the least int, where the subtraction wraps); when `Ok` is false
`AliveWorkers` is unchanged; `MTasks`, `RTasks`, `Tasks.Finished` (and `FinChannel`) are
unchanged in both cases. -/
theorem ShutdownRequest_contract (t : Tasks) (shutdown : Shutdown) :
    (ShutdownRequest t shutdown).2.Ok = t.Finished ∧
    ((ShutdownRequest t shutdown).2.Ok = true →
      (ShutdownRequest t shutdown).1.AliveWorkers = wrapInt (t.AliveWorkers - 1) ∧
      (-(2 ^ 63) < t.AliveWorkers → t.AliveWorkers < 2 ^ 63 →
        (ShutdownRequest t shutdown).1.AliveWorkers = t.AliveWorkers - 1)) ∧
    ((ShutdownRequest t shutdown).2.Ok = false →
      (ShutdownRequest t shutdown).1.AliveWorkers = t.AliveWorkers) ∧
    (ShutdownRequest t shutdown).1.MTasks = t.MTasks ∧
    (ShutdownRequest t shutdown).1.RTasks = t.RTasks ∧
    (ShutdownRequest t shutdown).1.Finished = t.Finished ∧
    (ShutdownRequest t shutdown).1.FinChannel = t.FinChannel := by
  unfold ShutdownRequest
  cases hf : t.Finished with
  | false => simp [hf]
  | true =>
    refine ⟨by simp, fun _ => ⟨by simp, fun h1 h2 => ?_⟩, by simp, by simp, by simp,
      by simp [hf], by simp⟩
    simp only [if_true]
    unfold wrapInt
    omega

/-- Witness of C13: on the state `exampleReduceOut` with `Finished` set and three workers
alive the reply is `Ok = true` and two workers stay alive; on `exampleReduceOut` itself the
reply is `Ok = false` and the count is unchanged. -/
theorem ShutdownRequest_contract_witness :
    (ShutdownRequest { exampleReduceOut with Finished := true, AliveWorkers := 3 }
        { Ok := false }).1.AliveWorkers = 2 ∧
    (ShutdownRequest exampleReduceOut { Ok := false }).1.AliveWorkers = 0 :=
  ⟨by
    have h := (ShutdownRequest_contract
      { exampleReduceOut with Finished := true, AliveWorkers := 3 } { Ok := false }).2.1 rfl
    rw [h.2 (by decide) (by decide)]
    rfl,
   (ShutdownRequest_contract exampleReduceOut { Ok := false }).2.2.1 rfl⟩

/-! ## The grouping loop on an empty merged input -/

/-- C14 at its input. On an empty merged input the scan loop of `ReduceTask.Process` runs no
iteration, so `valChan` is still the nil channel when the final `close(valChan)` executes:
the close panics. The grouping loop does not complete and `ReduceTask.Process` does not
return, for any user code and however many (empty) map outputs are merged. -/
theorem ReduceTask.Process_empty_input (client : Interface) :
    ReduceTask.Process.scan
        { prevKey := "", newKey := true, valChan := ValChan.nilChan, calls := [] } []
      = some { prevKey := "", newKey := true, valChan := ValChan.nilChan, calls := [] } ∧
    ReduceScan.close { prevKey := "", newKey := true, valChan := ValChan.nilChan, calls := [] }
      = none ∧
    ReduceTask.Process.groups [] = none ∧
    ReduceTask.Process client [] = none ∧
    ReduceTask.Process client [[], []] = none :=
  ⟨rfl, rfl, rfl, rfl, rfl⟩

/-! ## Global completion -/

theorem NotifyReduceFinished.allFinished_fold (rs : List ReduceTask) (b : Bool) :
    rs.foldl (fun allFinished task => if !task.Finished then false else allFinished) b =
      (b && rs.all fun r => r.Finished) := by
  induction rs generalizing b with
  | nil => simp
  | cons r rest ih =>
    simp only [List.foldl_cons, List.all_cons, ih]
    cases r.Finished <;> cases b <;> simp

theorem NotifyReduceFinished.allFinished_iff (rs : List ReduceTask) :
    NotifyReduceFinished.allFinished rs = true ↔ ∀ r ∈ rs, r.Finished = true := by
  rw [NotifyReduceFinished.allFinished, NotifyReduceFinished.allFinished_fold]
  simp

/-- What `NotifyReduceFinished` does to `Tasks.Finished`: it is set when all reduce tasks
are finished after the step and kept otherwise. -/
theorem NotifyReduceFinished_finished (n : Notification) (t t1 : Tasks)
    (h : NotifyReduceFinished n t = some t1) :
    ((∀ r ∈ t1.RTasks, r.Finished = true) ∧ t1.Finished = true) ∨
      (¬ (∀ r ∈ t1.RTasks, r.Finished = true) ∧ t1.Finished = t.Finished) := by
  simp only [NotifyReduceFinished, Option.bind_eq_some] at h
  obtain ⟨rT, _, rs, _, heq⟩ := h
  split at heq
  · rename_i hall
    simp only [Option.bind_eq_some, Option.some.injEq] at heq
    obtain ⟨_, _, heq⟩ := heq
    rw [← heq]
    exact Or.inl ⟨(NotifyReduceFinished.allFinished_iff rs).mp hall, rfl⟩
  · rename_i hall
    simp only [Option.some.injEq] at heq
    rw [← heq]
    exact Or.inr ⟨fun hr => hall ((NotifyReduceFinished.allFinished_iff rs).mpr hr), rfl⟩

/-- Every step other than `NotifyReduceFinished` keeps `Tasks.Finished`. -/
theorem actorStep_Finished (t t1 : Tasks) (q : Request) (resp : Response)
    (h : actorStep t q = some (t1, resp)) (hq : ∀ n, q ≠ Request.NotifyReduceFinished n) :
    t1.Finished = t.Finished := by
  cases q with
  | Ping =>
    simp only [actorStep, Option.some.injEq, Prod.mk.injEq] at h
    rw [← h.1]; rfl
  | ShutdownRequest =>
    simp only [actorStep, Option.some.injEq, Prod.mk.injEq] at h
    rw [← h.1]
    unfold ShutdownRequest
    split <;> rfl
  | GetTask =>
    simp only [actorStep, Option.some.injEq, Prod.mk.injEq] at h
    rw [← h.1]
    rcases GetTask_cases t with ⟨i, mT, _, _, hg⟩ | ⟨_, i, rT, _, _, hg⟩ | hg <;> rw [hg]
  | NotifyMapFinished n =>
    simp only [actorStep, Option.map_eq_some', Prod.mk.injEq] at h
    obtain ⟨t2, h2, rfl, -⟩ := h
    obtain ⟨mT, _, _, rfl⟩ := NotifyMapFinished_some n t t2 h2
    rfl
  | NotifyReduceFinished n => exact absurd rfl (hq n)

theorem mem_redF_iff (t : Tasks) :
    (∀ b ∈ t.redF, b = true) ↔ ∀ r ∈ t.RTasks, r.Finished = true := by
  simp [Tasks.redF]

/-- The completion invariant is kept by every successful actor step. -/
theorem completion_step (t t1 : Tasks) (q : Request) (resp : Response)
    (hinv : t.Finished = true ↔ ∀ r ∈ t.RTasks, r.Finished = true)
    (h : actorStep t q = some (t1, resp)) :
    t1.Finished = true ↔ ∀ r ∈ t1.RTasks, r.Finished = true := by
  obtain ⟨he, -, -⟩ := actorStep_effect t t1 q resp h
  have hkeep : (∀ n, q ≠ Request.NotifyReduceFinished n) → t1.redF = t.redF →
      (t1.Finished = true ↔ ∀ r ∈ t1.RTasks, r.Finished = true) := by
    intro hq hF
    rw [actorStep_Finished t t1 q resp h hq, ← mem_redF_iff t1, hF, mem_redF_iff t]
    exact hinv
  cases he with
  | idle _ _ _ hD hF rD rF _ =>
    cases q with
    | NotifyReduceFinished n =>
      simp only [actorStep, Option.map_eq_some', Prod.mk.injEq] at h
      obtain ⟨t2, h2, rfl, -⟩ := h
      rcases NotifyReduceFinished_finished n t t2 h2 with ⟨hall, hfin⟩ | ⟨hall, hfin⟩
      · exact ⟨fun _ => hall, fun _ => hfin⟩
      · rw [hfin]
        rw [← mem_redF_iff t2, rF, mem_redF_iff t] at hall
        exact ⟨fun hf => absurd (hinv.mp hf) hall, fun hr => by
          rw [← mem_redF_iff t2, rF, mem_redF_iff t] at hr
          exact absurd hr hall⟩
    | Ping => exact hkeep (fun n hn => by cases hn) rF
    | GetTask => exact hkeep (fun n hn => by cases hn) rF
    | ShutdownRequest => exact hkeep (fun n hn => by cases hn) rF
    | NotifyMapFinished n => exact hkeep (fun n hn => by cases hn) rF
  | mapHanded i n _ k _ _ hD hF rD rF _ _ => exact hkeep (fun n hn => by cases hn) rF
  | redHanded i n _ k _ _ hall hD hF rD rF _ _ => exact hkeep (fun n hn => by cases hn) rF
  | mapNotified n _ h0 hlt hD hF rD rF => exact hkeep (fun n hn => by cases hn) rF
  | redNotified n _ h0 hlt hD hF rD rF =>
    simp only [actorStep, Option.map_eq_some', Prod.mk.injEq] at h
    obtain ⟨t2, h2, rfl, -⟩ := h
    rcases NotifyReduceFinished_finished n t t2 h2 with ⟨hall, hfin⟩ | ⟨hall, hfin⟩
    · exact ⟨fun _ => hall, fun _ => hfin⟩
    · rw [hfin]
      refine ⟨fun hf => absurd ?_ hall, fun hr => absurd hr hall⟩
      rw [← mem_redF_iff t2, rF]
      intro b hb
      rcases List.mem_or_eq_of_mem_set hb with hb | rfl
      · exact (mem_redF_iff t).mpr (hinv.mp hf) b hb
      · rfl

/-- C11, as stated, fails: the master accepts `M = 1`, `R = 0` (start-up on a one-row input
produces the initial state), and in that state every reduce task is finished, there being
none, while `Tasks.Finished` is false. -/
theorem completion_iff_counterexample :
    runMaster.startup 1 0 "3410" "tmp3410/" [{ Key := "1", Value := "a" }]
      = some (initTasks 1 0 "3410") ∧
    actorRun (initTasks 1 0 "3410") [] = some (initTasks 1 0 "3410") ∧
    ¬ ((initTasks 1 0 "3410").Finished = true ↔
        ∀ r ∈ (initTasks 1 0 "3410").RTasks, r.Finished = true) := by
  refine ⟨by decide, rfl, ?_⟩
  intro h
  have : (initTasks 1 0 "3410").Finished = true :=
    h.mpr (fun r hr => absurd hr (List.not_mem_nil r))
  exact absurd this (by decide)

/-- C11, amended. In every state reached from the master's initial state with `R ≥ 1`
reduce tasks (any `M`) by a finite sequence of actor steps, `Tasks.Finished = true` if and
only if every reduce task has `Finished = true`. -/
theorem completion_iff (M R : Nat) (port : String) (reqs : List Request) (t : Tasks)
    (hR : 1 ≤ R) (h : actorRun (initTasks M R port) reqs = some t) :
    t.Finished = true ↔ ∀ r ∈ t.RTasks, r.Finished = true := by
  refine actorRun_invariant
    (fun s => s.Finished = true ↔ ∀ r ∈ s.RTasks, r.Finished = true)
    (fun s q s1 resp hs hq => completion_step s s1 q resp hs hq) reqs _ t ?_ h
  constructor
  · intro hf
    exact absurd hf (by simp [initTasks])
  · intro hall
    have hmem : false ∈ (initTasks M R port).redF := by
      rw [initTasks_redF]
      exact List.mem_replicate.mpr ⟨by omega, rfl⟩
    have := (mem_redF_iff _).mpr hall false hmem
    exact absurd this (by decide)

/-- Witness of the amended C11: with `M = 1`, `R = 1`, after both tasks are handed out and
notified the state is `exampleAllDone`, where the reduce task is finished and
`Tasks.Finished` is set. -/
theorem completion_iff_witness :
    actorRun (initTasks 1 1 "3410")
        [Request.GetTask, Request.NotifyMapFinished exampleNotification, Request.GetTask,
         Request.NotifyReduceFinished exampleNotification]
      = some exampleAllDone ∧
    (exampleAllDone.RTasks.map fun r => r.Finished) = [true] ∧
    exampleAllDone.Finished = true :=
  ⟨by decide, rfl,
   (completion_iff 1 1 "3410"
      [Request.GetTask, Request.NotifyMapFinished exampleNotification, Request.GetTask,
       Request.NotifyReduceFinished exampleNotification]
      exampleAllDone (by decide) (by decide)).mpr (by decide)⟩

/-! ## Master start-up -/

/-- With no output relation to write to, the first row of the scan panics in
`databaseIndex %= m`. -/
theorem splitDatabase_zero (row : Pair) (rest : List Pair) (outputPattern : Int → String) :
    splitDatabase (row :: rest) outputPattern 0 = none := by
  simp [splitDatabase, splitDatabase.scan, splitDatabase.row]

/-- With `M ≥ 1` the start-up produces the coordinator state whatever `R ≥ 0` and whatever
the input: the error of the split (fewer rows than `M`) is discarded. -/
theorem runMaster.startup_some (M R : Nat) (hM : 1 ≤ M) (port tempDir : String)
    (input : List Pair) :
    runMaster.startup (M : Int) (R : Int) port tempDir input = some (initTasks M R port) := by
  obtain ⟨res, hres, -⟩ :=
    splitDatabase_some M hM input (fun i => "data/" ++ tempDir ++ mapSourceFile i)
  have hneg : ¬ ((M : Int) < 0 ∨ (R : Int) < 0) := by omega
  simp only [runMaster.startup, splitInputFile, hres, Option.map_some', Option.some_bind,
    runMaster.tasks, hneg, if_false, Int.toNat_ofNat]

/-- C12, as stated, fails: `getInput` parses the line `0` to the count 0, and start-up with
`M = 1`, `R = 0` on a one-row input, like start-up with `M = 0`, `R = 1` on an empty
input, produces a coordinator state instead of failing. -/
theorem runMaster_startup_counterexample :
    strconvAtoi "0" = some 0 ∧
    runMaster.startup 1 0 "3410" "tmp3410/" [{ Key := "1", Value := "a" }]
      = some (initTasks 1 0 "3410") ∧
    runMaster.startup 0 1 "3410" "tmp3410/" [] = some (initTasks 0 1 "3410") := by
  decide

/-- C12, amended. When `M = 0` and the input relation has at least one row, the start-up of
the master produces no coordinator state, for any `R`: the split panics on the first row
(integer division by zero in `databaseIndex %= m`). -/
theorem runMaster_startup_zero_maps (R : Int) (port tempDir : String) (input : List Pair)
    (hne : input ≠ []) : runMaster.startup 0 R port tempDir input = none := by
  cases input with
  | nil => exact absurd rfl hne
  | cons row rest =>
    simp only [runMaster.startup, splitInputFile, splitDatabase_zero, Option.map_none',
      Option.none_bind]

/-- Witness of the amended C12: `M = 0`, `R = 1` on a one-row input. -/
theorem runMaster_startup_zero_maps_witness :
    runMaster.startup 0 1 "3410" "tmp3410/" [{ Key := "1", Value := "a" }] = none :=
  runMaster_startup_zero_maps 1 "3410" "tmp3410/" [{ Key := "1", Value := "a" }]
    (by decide)

end MapReduce
